import Mathlib

/-!
Verification of the `raster` 2D vector rasterizer (analytic-coverage SVG renderer).

The C++ sources are shallowly embedded over `ℚ`: the program's `float`
arithmetic is modelled by exact rational arithmetic (the spec's claims are
stated "in exact real arithmetic"), machine-integer arithmetic (uint64/uint32
in the PNG encoder) is modelled by `ℕ` with explicit reductions mod `2^w`,
and the handful of genuinely real-valued specification notions (areas of
plane regions) live in `ℝ` as interval integrals.

Sources embedded here: `rasterizer.hpp` / `raster.cpp` (Point, Line,
Segment, Color, Trapezoid, rasterize_pixel, Pixmap), `rasterizer.cpp`
(the event sweep's strip clamping, the precomputed-ys sweep, Event),
`document.hpp` (Transformation, Path, curve_to, Gradient, RadialGradient,
Shape building), `png.cpp` (xorshift128+, dither, write_png).
-/

namespace Raster

/-- 2D point, from `struct Point { float x, y; }`. -/
structure Point where
  x : ℚ
  y : ℚ
deriving DecidableEq, Repr

instance : Inhabited Point := ⟨⟨0, 0⟩⟩

instance : Add Point := ⟨fun p q => ⟨p.x + q.x, p.y + q.y⟩⟩

instance : Sub Point := ⟨fun p q => ⟨p.x - q.x, p.y - q.y⟩⟩

instance : Neg Point := ⟨fun p => ⟨-p.x, -p.y⟩⟩

/-- `Point operator *(float f)`: scalar multiplication on the right. -/
instance : HMul Point ℚ Point := ⟨fun p f => ⟨p.x * f, p.y * f⟩⟩

/-- `constexpr float dot(const Point& p0, const Point& p1)`. -/
def dot (p0 p1 : Point) : ℚ :=
  p0.x * p1.x + p0.y * p1.y

/-- A line parametric in y: `x(y) = m*y + x0`, from `struct Line { float m, x0; }`. -/
structure Line where
  m : ℚ
  x0 : ℚ
deriving DecidableEq, Repr

/-- `Line(float m, const Point& p): m(m), x0(p.x - m * p.y)`. -/
def Line.ofSlopePoint (m : ℚ) (p : Point) : Line :=
  ⟨m, p.x - m * p.y⟩

/-- `Line(const Point& p0, const Point& p1): Line((p1.x - p0.x) / (p1.y - p0.y), p0)`. -/
def Line.ofPoints (p0 p1 : Point) : Line :=
  Line.ofSlopePoint ((p1.x - p0.x) / (p1.y - p0.y)) p0

/-- `Line(float x): m(0.f), x0(x)` — the vertical line `x(y) = x`. -/
def Line.ofX (x : ℚ) : Line :=
  ⟨0, x⟩

/-- `float get_x(float y) const { return m * y + x0; }`. -/
def Line.get_x (l : Line) (y : ℚ) : ℚ :=
  l.m * y + l.x0

/-- `intersect(l0, l1) = (l1.x0 - l0.x0) / (l0.m - l1.m)`: the y at which the
two lines have the same x (when slopes differ). -/
def intersect (l0 l1 : Line) : ℚ :=
  (l1.x0 - l0.x0) / (l0.m - l1.m)

/-- `struct Segment { float y0, y1; Line line; }`. -/
structure Segment where
  y0 : ℚ
  y1 : ℚ
  line : Line
deriving DecidableEq, Repr

/-- `Segment(const Point& p0, const Point& p1): y0(p0.y), y1(p1.y), line(p0, p1)`. -/
def Segment.ofPoints (p0 p1 : Point) : Segment :=
  ⟨p0.y, p1.y, Line.ofPoints p0 p1⟩

/-- Straight-alpha RGBA color, `struct Color { float r, g, b, a; }`. -/
structure Color where
  r : ℚ
  g : ℚ
  b : ℚ
  a : ℚ
deriving DecidableEq, Repr

/-- `Color(): Color(0.f, 0.f, 0.f, 0.f)` — transparent black. -/
def Color.transparent : Color :=
  ⟨0, 0, 0, 0⟩

instance : Inhabited Color := ⟨Color.transparent⟩

instance : Add Color := ⟨fun c d => ⟨c.r + d.r, c.g + d.g, c.b + d.b, c.a + d.a⟩⟩

/-- `Color operator *(float f)`. -/
instance : HMul Color ℚ Color := ⟨fun c f => ⟨c.r * f, c.g * f, c.b * f, c.a * f⟩⟩

/-- `blend(dst, src) = src + dst * (1.f - src.a)` (Porter-Duff over, premultiplied). -/
def blend (dst src : Color) : Color :=
  src + dst * (1 - src.a)

/-- `Color unpremultiply() const`: zero alpha gives transparent black,
otherwise each channel is divided by alpha. -/
def Color.unpremultiply (c : Color) : Color :=
  if c.a = 0 then Color.transparent else ⟨c.r / c.a, c.g / c.a, c.b / c.a, c.a⟩

/-- `clamp(value, min, max)` as in `raster.cpp`/`png.cpp`:
`value < min ? min : (max < value ? max : value)`. -/
def clampQ (value lo hi : ℚ) : ℚ :=
  if value < lo then lo else if hi < value then hi else value

/-- The trapezoid `struct Trapezoid { float y0, y1; float x0, x1, x2, x3; }`:
bounded below by `y0` (left boundary at `x0`, right at `x2`) and above by
`y1` (left boundary at `x1`, right at `x3`). -/
structure Trapezoid where
  y0 : ℚ
  y1 : ℚ
  x0 : ℚ
  x1 : ℚ
  x2 : ℚ
  x3 : ℚ
deriving DecidableEq, Repr

/-- `get_area() = (y1 - y0) * (x2 + x3 - x0 - x1) * .5f`. -/
def Trapezoid.get_area (t : Trapezoid) : ℚ :=
  (t.y1 - t.y0) * (t.x2 + t.x3 - t.x0 - t.x1) * (1 / 2)

/-- The left-correction terms of `rasterize_pixel` (the `if (x4 < x1)` block):
the subtracted sliver left of the left boundary, and the added-back part
outside the pixel's right edge `x5`.  The imperative accumulation
`area -= ...; if (x5 < x1) area += ...` is written as one signed sum. -/
def leftCorrection (y0 y1 x0 x1 x4 x5 : ℚ) : ℚ :=
  if x4 < x1 then
    (if x4 < x0 then -(Trapezoid.mk y0 y1 x4 x4 x0 x1).get_area
     else
       -(Trapezoid.mk (intersect (Line.ofPoints ⟨x0, y0⟩ ⟨x1, y1⟩) (Line.ofX x4))
           y1 x4 x4 x4 x1).get_area) +
    (if x5 < x1 then
       (Trapezoid.mk (intersect (Line.ofPoints ⟨x0, y0⟩ ⟨x1, y1⟩) (Line.ofX x5))
           y1 x5 x5 x5 x1).get_area
     else 0)
  else 0

/-- The right-correction terms of `rasterize_pixel` (the `if (x5 > x2)` block). -/
def rightCorrection (y0 y1 x2 x3 x4 x5 : ℚ) : ℚ :=
  if x2 < x5 then
    (if x3 < x5 then -(Trapezoid.mk y0 y1 x2 x3 x5 x5).get_area
     else
       -(Trapezoid.mk y0 (intersect (Line.ofPoints ⟨x2, y0⟩ ⟨x3, y1⟩) (Line.ofX x5))
           x2 x5 x5 x5).get_area) +
    (if x2 < x4 then
       (Trapezoid.mk y0 (intersect (Line.ofPoints ⟨x2, y0⟩ ⟨x3, y1⟩) (Line.ofX x4))
           x2 x4 x4 x4).get_area
     else 0)
  else 0

/-- `float rasterize_pixel(const Trapezoid& trapezoid, size_t x)`: the area of
the trapezoid clipped to the pixel column `[x, x+1]`, computed as the full
strip height `y1 - y0` corrected at the left boundary (`if (x4 < x1)`) and at
the right boundary (`if (x5 > x2)`) exactly as in the source. -/
def rasterize_pixel (t : Trapezoid) (x : ℤ) : ℚ :=
  let x4 : ℚ := x
  let x5 : ℚ := x + 1
  (t.y1 - t.y0) + leftCorrection t.y0 t.y1 t.x0 t.x1 x4 x5
    + rightCorrection t.y0 t.y1 t.x2 t.x3 x4 x5

/-! ### The specification-side area of a pixel/trapezoid intersection (claim C1)

The spec calls `rasterize_pixel` "the exact area of the convex intersection of
a trapezoid and an axis-aligned unit square".  We formalize that area as a
Cavalieri integral over the strip's y-range: at height `y` the trapezoid
covers `[L(y), R(y)]` where `L` is the line through `(x0,y0)`,`(x1,y1)` and
`R` the line through `(x2,y0)`,`(x3,y1)`; clipping to the pixel column
`[x, x+1]` leaves a slice of width `(min (R y) (x+1) - max (L y) x)⁺`. -/

/-- The boundary line through `(xa, y0)` and `(xb, y1)`, as a real function of
y.  This is the real counterpart of `Line.ofPoints ⟨xa, y0⟩ ⟨xb, y1⟩`:
`x(y) = xa + (xb - xa) / (y1 - y0) * (y - y0)`. -/
noncomputable def lineY (y0 y1 xa xb y : ℝ) : ℝ :=
  xa + (xb - xa) / (y1 - y0) * (y - y0)

/-- Exact area of the intersection of the trapezoid with the pixel column
`[x, x+1] × [y0, y1]`, as a Cavalieri integral of the clipped slice width. -/
noncomputable def columnArea (t : Trapezoid) (x : ℤ) : ℝ :=
  ∫ y in (t.y0 : ℝ)..(t.y1 : ℝ),
    max 0 (min (lineY t.y0 t.y1 t.x2 t.x3 y) (x + 1) -
           max (lineY t.y0 t.y1 t.x0 t.x1 y) x)

/-! ### The sweep's strip boundaries (claim C2) -/

/-- The (non-strict) order in which the event-heap sweep keeps
`current_lines` after `std::sort` with the comparator
`x0 < x1 || (x0 == x1 && l0->m < l1->m)` evaluated at the strip's bottom y:
for `i < j` the sorted vector satisfies the negation of `comp(l[j], l[i])`,
i.e. this lexicographic `≤` on `(x(y), m)`. -/
def sortKey (y : ℚ) (l0 l1 : Line) : Prop :=
  l0.get_x y < l1.get_x y ∨ (l0.get_x y = l1.get_x y ∧ l0.m ≤ l1.m)

/-- The `// find intersections` scan of `rasterize`: starting from
`next_y = event.y`, walk adjacent pairs of the sorted `current_lines`; for a
pair with distinct slopes whose intersection lies strictly between the
current y and the running `next_y`, clamp `next_y` to the intersection. -/
def clampScan (y : ℚ) : ℚ → List Line → ℚ
  | next_y, l0 :: l1 :: rest =>
    clampScan y
      (if l0.m ≠ l1.m ∧ y < intersect l0 l1 ∧ intersect l0 l1 < next_y then
        intersect l0 l1
      else next_y)
      (l1 :: rest)
  | next_y, _ => next_y

/-- `RasterizeSegment::normalize_segment`: swap the endpoints so `y0 < y1`
(the direction tag is dropped here; only geometry matters for C2). -/
def normalizeSegment (s : Segment) : Segment :=
  if s.y0 < s.y1 then s else ⟨s.y1, s.y0, s.line⟩

/-- The strip boundaries contributed per segment by the `collect the segments
and ys` loop of the precomputed-ys `rasterize`: each segment pushes its two
endpoint ys. -/
def baseYs (segs : List Segment) : List ℚ :=
  (segs.map fun s => [s.y0, s.y1]).flatten

/-- One iteration of the `add additional ys for intersecting segments` loop:
for a pair of (normalized) segments with overlapping y-ranges and distinct
slopes whose line intersection lies strictly inside the overlap, produce the
intersection y. -/
def pairCross (s0 s1 : Segment) : Option ℚ :=
  let y0 := max s0.y0 s1.y0
  let y1 := min s0.y1 s1.y1
  if y0 < y1 ∧ s0.line.m ≠ s1.line.m then
    let y := intersect s0.line s1.line
    if y0 < y ∧ y < y1 then some y else none
  else none

/-- The doubly-nested intersection loop `for i; for j = i+1 ..`. -/
def crossYsAux : List Segment → List ℚ
  | [] => []
  | s :: rest => rest.filterMap (pairCross s) ++ crossYsAux rest

/-- All strip-boundary ys collected by the precomputed-ys `rasterize`:
segment endpoints plus pairwise in-range intersections (of the normalized
segments). -/
def allYs (segs : List Segment) : List ℚ :=
  baseYs segs ++ crossYsAux (segs.map normalizeSegment)

/-- A segment is active in the strip `(a, b)`:
`if (y0 < segment.y1 && segment.y0 < y1)` with strip bounds `y0 = a, y1 = b`. -/
def activeIn (a b : ℚ) (s : Segment) : Prop :=
  a < s.y1 ∧ s.y0 < b

/-! ### Events of the heap sweep (claim C7) -/

/-- `Event::Type`. -/
inductive EventType where
  | LINE_START
  | LINE_END
deriving DecidableEq

/-- `struct Event { Type type; float y; size_t index; }`. -/
structure Event where
  type : EventType
  y : ℚ
  index : ℕ
deriving DecidableEq

/-- `constexpr bool operator >(const Event& event) const { return y > event.y; }` —
the only comparison the priority queue uses. -/
def Event.ordGt (e0 e1 : Event) : Prop :=
  e0.y > e1.y

/-- The secondary key the spec claims ties are broken by: the
(event-type, edge-index) pair, with `LINE_START` before `LINE_END`. -/
def Event.secondaryLt (e0 e1 : Event) : Prop :=
  (e0.type = EventType.LINE_START ∧ e1.type = EventType.LINE_END) ∨
    (e0.type = e1.type ∧ e0.index < e1.index)

/-! ### Gradients (claims C3, C4) -/

/-- `struct Stop { Color color; float pos; }`. -/
structure Stop where
  color : Color
  pos : ℚ
deriving DecidableEq

instance : Inhabited Stop := ⟨⟨Color.transparent, 0⟩⟩

/-- `Gradient::evaluate(float pos)` from `document.hpp`: empty stop list gives
transparent black; otherwise `std::lower_bound` (first stop whose `pos` is not
less than the query — the binary search's contract on the sorted stop list)
selects the clamping/interpolation case. -/
def gradientEvaluate (stops : List Stop) (pos : ℚ) : Color :=
  match stops with
  | [] => Color.transparent
  | s :: rest =>
    let l := s :: rest
    let i := l.findIdx fun st => decide (pos ≤ st.pos)
    if i = 0 then s.color
    else if i = l.length then (l.getLastI).color
    else
      let s0 := l.getD (i - 1) default
      let s1 := l.getD i default
      let factor := (pos - s0.pos) / (s1.pos - s0.pos)
      s0.color * (1 - factor) + s1.color * factor

/-- `struct RadialGradient` (center `c`, radius `r`, focal point `f`, focal
radius `fr`, plus the stop table). -/
structure RadialGradient where
  stops : List Stop
  c : Point
  r : ℚ
  f : Point
  fr : ℚ

/-- `RadialGradient::evaluate(const Point& p)`.  The machine `std::sqrt` is
abstracted as a function parameter `sqrtF` (both the code and the spec apply
the same square root to the same discriminant, so the claims are independent
of its rounding). -/
def RadialGradient.evaluate (sqrtF : ℚ → ℚ) (g : RadialGradient) (p : Point) : Color :=
  let A := (g.c.x - g.f.x) ^ 2 + (g.c.y - g.f.y) ^ 2 - (g.r - g.fr) ^ 2
  let B := (g.c.x - g.f.x) * (g.f.x - p.x) + (g.c.y - g.f.y) * (g.f.y - p.y)
    - g.fr * (g.r - g.fr)
  let C := (g.f.x - p.x) ^ 2 + (g.f.y - p.y) ^ 2 - g.fr ^ 2
  if A = 0 then
    if B = 0 then Color.transparent
    else gradientEvaluate g.stops (-C / (2 * B))
  else
    let D := B ^ 2 - A * C
    if D < 0 then Color.transparent
    else if g.fr > g.r then gradientEvaluate g.stops ((-B + sqrtF D) / A)
    else gradientEvaluate g.stops ((-B - sqrtF D) / A)

/-- The spec's description of the radial solver, §4.3: the chosen parameter
`t`, or `none` for the transparent-black outcomes.  (Definition follows the
spec's words, for comparison with `RadialGradient.evaluate`.) -/
def radialSpecParam (sqrtF : ℚ → ℚ) (g : RadialGradient) (p : Point) : Option ℚ :=
  let A := (g.c.x - g.f.x) ^ 2 + (g.c.y - g.f.y) ^ 2 - (g.r - g.fr) ^ 2
  let B := (g.c.x - g.f.x) * (g.f.x - p.x) + (g.c.y - g.f.y) * (g.f.y - p.y)
    - g.fr * (g.r - g.fr)
  let C := (g.f.x - p.x) ^ 2 + (g.f.y - p.y) ^ 2 - g.fr ^ 2
  if A = 0 then
    if B = 0 then none else some (-C / (2 * B))
  else if B ^ 2 - A * C < 0 then none
  else if g.fr > g.r then some ((-B + sqrtF (B ^ 2 - A * C)) / A)
  else some ((-B - sqrtF (B ^ 2 - A * C)) / A)

/-- The spec-side radial gradient color: transparent black when no parameter
is produced, otherwise the stop color at the parameter. -/
def radialSpec (sqrtF : ℚ → ℚ) (g : RadialGradient) (p : Point) : Color :=
  match radialSpecParam sqrtF g p with
  | none => Color.transparent
  | some t => gradientEvaluate g.stops t

/-! ### Paths, flattening and shape building (claims C5, C9) -/

/-- 2×3 affine transform `struct Transformation`. -/
structure Transformation where
  a : ℚ
  b : ℚ
  c : ℚ
  d : ℚ
  e : ℚ
  f : ℚ
deriving DecidableEq

/-- `Transformation()`: the identity. -/
def Transformation.ident : Transformation :=
  ⟨1, 0, 0, 1, 0, 0⟩

/-- `operator *(const Transformation& t, const Point& p)`. -/
def Transformation.apply (t : Transformation) (p : Point) : Point :=
  ⟨t.a * p.x + t.c * p.y + t.e, t.b * p.x + t.d * p.y + t.f⟩

/-- `Shape::append_segment(p0, p1)` (also `Document::append_segment` in
`raster.cpp`): push `Segment(p0, p1)` only when `p0.y != p1.y`. -/
def appendSegment (segs : List Segment) (p0 p1 : Point) : List Segment :=
  if p0.y ≠ p1.y then segs ++ [Segment.ofPoints p0 p1] else segs

/-- `Path::fill_subpath`: append the transformed consecutive segments of the
subpath's point list, then the synthesized closing segment from the last
point back to the first.  (The C++ reads `points.back()`/`points.front()`;
an empty point list — unreachable through the path API — is modelled by the
default point.) -/
def fillSubpath (t : Transformation) (points : List Point) (segs : List Segment) :
    List Segment :=
  let segs := (points.zip points.tail).foldl
    (fun segs pq => appendSegment segs (t.apply pq.1) (t.apply pq.2)) segs
  appendSegment segs (t.apply points.getLastI) (t.apply points.headI)

/-- `struct Subpath { std::vector<Point> points; bool closed; }`. -/
structure Subpath where
  points : List Point
  closed : Bool
deriving DecidableEq

instance : Inhabited Subpath := ⟨⟨[], false⟩⟩

/-- `class Path`: the device transform and the subpath list. -/
structure Path where
  t : Transformation
  subpaths : List Subpath

/-- `Path::current_point()`. -/
def Path.currentPoint (p : Path) : Point :=
  match p.subpaths.getLast? with
  | none => ⟨0, 0⟩
  | some sp => if sp.closed then sp.points.headI else sp.points.getLastI

/-- `subpaths.back().points.push_back(pt)` (callers guarantee a last open
subpath exists). -/
def Path.pushPoint (p : Path) (pt : Point) : Path :=
  { p with
    subpaths := p.subpaths.dropLast ++
      [{ p.subpaths.getLastI with points := p.subpaths.getLastI.points ++ [pt] }] }

/-- `Path::move_to`. -/
def Path.moveTo (p : Path) (pt : Point) : Path :=
  { p with subpaths := p.subpaths ++ [⟨[pt], false⟩] }

/-- `Path::line_to`. -/
def Path.lineTo (p : Path) (pt : Point) : Path :=
  let p := if p.subpaths = [] ∨ (p.subpaths.getLastI).closed = true then
    p.moveTo p.currentPoint else p
  p.pushPoint pt

/-- `Path::length_squared`. -/
def lengthSquared (p : Point) : ℚ :=
  dot p p

/-- `Path::get_distance_squared(a, b, p)`: squared distance between `p` and
the segment `a`–`b`. -/
def getDistanceSquared (a b p : Point) : ℚ :=
  if a = b then lengthSquared (p - a)
  else
    let u := dot (p - a) (b - a) / lengthSquared (b - a)
    if u ≤ 0 then lengthSquared (p - a)
    else if 1 ≤ u then lengthSquared (p - b)
    else lengthSquared ((p - a) - (b - a) * u)

/-- `Path::get_error_squared(p0, p1, p2, p3)`. -/
def getErrorSquared (p0 p1 p2 p3 : Point) : ℚ :=
  max (getDistanceSquared p0 p3 p1) (getDistanceSquared p0 p3 p2)

/-- `constexpr float tolerance = .1f`.  (The exact binary value of `.1f` is
irrelevant to the claims here, which compare it against an error that is
exactly zero.) -/
def tolerance : ℚ :=
  1 / 10

/-- `Path::curve_to(p1, p2, p3)`: flatten below tolerance, otherwise de
Casteljau subdivision at `t = ½` and recursion on both halves.  The C++
recursion has no explicit bound; the embedding adds structural fuel (the
claims only concern the non-recursive branch, which is independent of it). -/
def Path.curveTo : Path → ℕ → Point → Point → Point → Path
  | p, 0, _, _, _ => p
  | p, fuel + 1, p1, p2, p3 =>
    let p0 := p.currentPoint
    if getErrorSquared (p.t.apply p0) (p.t.apply p1) (p.t.apply p2) (p.t.apply p3) <
        tolerance * tolerance then
      p.lineTo p3
    else
      let p4 := (p0 + p1) * (1 / 2 : ℚ)
      let p5 := (p1 + p2) * (1 / 2 : ℚ)
      let p6 := (p2 + p3) * (1 / 2 : ℚ)
      let p7 := (p4 + p5) * (1 / 2 : ℚ)
      let p8 := (p5 + p6) * (1 / 2 : ℚ)
      let p9 := (p7 + p8) * (1 / 2 : ℚ)
      ((p.curveTo fuel p4 p7 p9).curveTo fuel p8 p6 p3)

/-- `Path::fill`: the segment list of the new shape — every subpath run
through `fill_subpath`. -/
def Path.fillSegments (p : Path) : List Segment :=
  p.subpaths.foldl (fun segs sp => fillSubpath p.t sp.points segs) []

/-- `Subpath::push_offset_segment(p0, p1, offset)`: skip degenerate
zero-length segments, otherwise push the two endpoints offset along the left
normal.  The machine `std::sqrt` of the squared length is abstracted as
`sqrtF`. -/
def pushOffsetSegment (sqrtF : ℚ → ℚ) (points : List Point) (p0 p1 : Point)
    (offset : ℚ) : List Point :=
  let d := p1 - p0
  if sqrtF (dot d d) = 0 then points
  else
    let d := d * (offset / sqrtF (dot d d))
    let d : Point := ⟨-d.y, d.x⟩
    points ++ [p0 + d, p1 + d]

/-- One subpath of `Path::stroke`: build the forward offset outline (plus the
closing segment and a second reversed outline when the subpath is closed,
or one combined outline when open), and fill the outline(s). -/
def strokeSubpath (sqrtF : ℚ → ℚ) (t : Transformation) (offset : ℚ) (sp : Subpath)
    (segs : List Segment) : List Segment :=
  let pts := sp.points
  let fwd := (pts.zip pts.tail).foldl
    (fun acc pq => pushOffsetSegment sqrtF acc pq.1 pq.2 offset) []
  if sp.closed then
    let fwd := pushOffsetSegment sqrtF fwd pts.getLastI pts.headI offset
    let segs := fillSubpath t fwd segs
    let bwd0 := pushOffsetSegment sqrtF [] pts.headI pts.getLastI offset
    let bwd := (pts.reverse.zip pts.reverse.tail).foldl
      (fun acc pq => pushOffsetSegment sqrtF acc pq.1 pq.2 offset) bwd0
    fillSubpath t bwd segs
  else
    let bwd := (pts.reverse.zip pts.reverse.tail).foldl
      (fun acc pq => pushOffsetSegment sqrtF acc pq.1 pq.2 offset) fwd
    fillSubpath t bwd segs

/-- `Path::stroke`: the segment list of the stroked shape. -/
def Path.strokeSegments (sqrtF : ℚ → ℚ) (p : Path) (width : ℚ) : List Segment :=
  p.subpaths.foldl (fun segs sp => strokeSubpath sqrtF p.t (width / 2) sp segs) []

/-! ### The pixmap (claims C8, C10) -/

/-- `class Pixmap { std::vector<Color> pixels; size_t width; }`. -/
structure Pixmap where
  width : ℕ
  pixels : List Color

/-- `Pixmap(size_t width, size_t height): pixels(width*height), width(width)`. -/
def Pixmap.ofSize (w h : ℕ) : Pixmap :=
  ⟨w, List.replicate (w * h) Color.transparent⟩

/-- `size_t get_width() const { return width; }`. -/
def Pixmap.get_width (pm : Pixmap) : ℕ :=
  pm.width

/-- `size_t get_height() const { return pixels.size() / width; }` — a `size_t`
division, which is undefined behaviour when `width == 0`; the fallible
division is modelled as `Option`. -/
def Pixmap.getHeightQ (pm : Pixmap) : Option ℕ :=
  if pm.width = 0 then none else some (pm.pixels.length / pm.width)

/-- `Color get_pixel(size_t x, size_t y) const { return pixels[y*width+x]; }`
(out-of-range access is UB in C++; the embedding returns the default color,
which the in-range theorems never see). -/
def Pixmap.get_pixel (pm : Pixmap) (x y : ℕ) : Color :=
  pm.pixels.getD (y * pm.width + x) Color.transparent

/-- `void add_pixel(x, y, color) { pixels[i] = pixels[i] + color; }`. -/
def Pixmap.add_pixel (pm : Pixmap) (x y : ℕ) (c : Color) : Pixmap :=
  { pm with
    pixels := pm.pixels.set (y * pm.width + x)
      (pm.pixels.getD (y * pm.width + x) Color.transparent + c) }

/-! ### The PNG encoder (claim C6, `png.cpp`) -/

/-- Truncation modulus of the 64-bit state. -/
def M64 : ℕ :=
  2 ^ 64

/-- `class Random`: xorshift128+ state, two 64-bit words. -/
structure Rng where
  s0 : ℕ
  s1 : ℕ

/-- The fixed seed `{0xC0DEC0DEC0DEC0DE, 0xC0DEC0DEC0DEC0DE}`. -/
def Rng.seed : Rng :=
  ⟨0xC0DEC0DEC0DEC0DE, 0xC0DEC0DEC0DEC0DE⟩

/-- `uint64_t next()`: one xorshift128+ step (64-bit wrapping arithmetic is
modelled by explicit reduction mod `2^64`). -/
def Rng.next (r : Rng) : ℕ × Rng :=
  let result := (r.s0 + r.s1) % M64
  let t := (r.s0 ^^^ (r.s0 <<< 23)) % M64
  (result, ⟨r.s1, t ^^^ r.s1 ^^^ (t >>> 18) ^^^ (r.s1 >>> 5)⟩)

/-- `float next_float() { return std::ldexp(static_cast<float>(next()), -64); }`:
the 64-bit word scaled by `2^-64`.  (The float conversion's rounding is not
modelled; the claims here do not depend on it.) -/
def Rng.nextFloat (r : Rng) : ℚ × Rng :=
  let n := r.next
  ((n.1 : ℚ) / 2 ^ 64, n.2)

/-- `unsigned char dither(float value) { return clamp(value * 255.f +
next_float(), 0.f, 255.f); }` — the conversion to `unsigned char` truncates
the clamped non-negative value. -/
def Rng.dither (r : Rng) (value : ℚ) : ℕ × Rng :=
  let u := r.nextFloat
  ((⌊clampQ (value * 255 + u.1) 0 255⌋).toNat, u.2)

/-- One step of the bitwise CRC-32 loop (`polynomial 0xEDB88320`). -/
def crcStep (crc : ℕ) : ℕ :=
  if crc % 2 = 1 then (crc / 2) ^^^ 0xEDB88320 else crc / 2

/-- `Crc32& operator <<(uint8_t data)`: xor in the byte, 8 polynomial steps. -/
def crcByte (crc b : ℕ) : ℕ :=
  crcStep^[8] (crc ^^^ b)

/-- CRC-32 of a byte list: state starts at `~0`, finalized by `~crc`.
(The C++ streams the same fold over the same bytes.) -/
def crc32 (bytes : List ℕ) : ℕ :=
  (bytes.foldl crcByte 0xFFFFFFFF) ^^^ 0xFFFFFFFF

/-- `Adler32& operator <<(uint8_t data)`. -/
def adlerStep (s : ℕ × ℕ) (b : ℕ) : ℕ × ℕ :=
  ((s.1 + b) % 65521, (s.2 + (s.1 + b) % 65521) % 65521)

/-- Adler-32 of a byte list (`s2 << 16 | s1`). -/
def adler32 (bytes : List ℕ) : ℕ :=
  let s := bytes.foldl adlerStep (1, 0)
  s.2 * 65536 + s.1

/-- `write<uint32_t>`: convert endianness, then emit least-significant byte
first — net effect, the big-endian bytes of the value. -/
def u32be (n : ℕ) : List ℕ :=
  [n / 2 ^ 24 % 256, n / 2 ^ 16 % 256, n / 2 ^ 8 % 256, n % 256]

/-- `write<uint16_t>`: big-endian bytes of the 16-bit value. -/
def u16be (n : ℕ) : List ℕ :=
  [n / 256 % 256, n % 256]

/-- `convert_endianness<uint16_t>`. -/
def byteswap16 (n : ℕ) : ℕ :=
  n % 256 * 256 + n / 256 % 256

/-- The four dithered bytes of one pixel: unpremultiply, then dither r, g, b,
a in order, threading the generator. -/
def pixelBytes (c : Color) (r : Rng) : List ℕ × Rng :=
  let c := c.unpremultiply
  let b0 := r.dither c.r
  let b1 := b0.2.dither c.g
  let b2 := b1.2.dither c.b
  let b3 := b2.2.dither c.a
  ([b0.1, b1.1, b2.1, b3.1], b3.2)

/-- The bytes of row `y` that pass through the Adler-accumulating data
stream: the filter-type byte `0`, then the pixels of the row left to right. -/
def rowData (pm : Pixmap) (y : ℕ) (r : Rng) : List ℕ × Rng :=
  (List.range pm.width).foldl
    (fun acc x =>
      let pb := pixelBytes (pm.get_pixel x y) acc.2
      (acc.1 ++ pb.1, pb.2))
    ([0], r)

/-- All rows' data-stream bytes, generator seeded once before the row loop. -/
def allRowsData (pm : Pixmap) (height : ℕ) : List (List ℕ) :=
  ((List.range height).foldl
    (fun acc y =>
      let row := rowData pm y acc.2
      (acc.1 ++ [row.1], row.2))
    (([] : List (List ℕ)), Rng.seed)).1

/-- The IDAT chunk content (chunk type, zlib header, one stored deflate block
per row, Adler-32 trailer) — exactly the bytes the C++ feeds through
`idat_stream`, in order. -/
def idatContent (pm : Pixmap) (height : ℕ) : List ℕ :=
  let width := pm.width
  let rows := allRowsData pm height
  let cmf : ℕ := 8 ||| (15 - 8) <<< 4
  let fdict : ℕ := 0
  let flevel : ℕ := 0
  let fcheck : ℕ := 31 - (cmf <<< 8 ||| fdict <<< 5 ||| flevel <<< 6) % 31
  let flg : ℕ := fcheck ||| fdict <<< 5 ||| flevel <<< 6
  let blockLen := byteswap16 ((1 + width * 4) % 65536)
  let blocks := ((List.range height).map fun y =>
    [if y = height - 1 then 1 else 0] ++ u16be blockLen ++
      u16be (65535 - blockLen) ++ rows.getD y []).flatten
  [73, 68, 65, 84] ++ [cmf, flg] ++ blocks ++ u32be (adler32 rows.flatten)

/-- The full byte output of `write_png` for a pixmap of the given height:
signature, IHDR, IDAT, IEND, each chunk with its CRC-32. -/
def pngBytes (pm : Pixmap) (height : ℕ) : List ℕ :=
  let width := pm.width
  let ihdr := [73, 72, 68, 82] ++ u32be width ++ u32be height ++ [8, 6, 0, 0, 0]
  let idat := idatContent pm height
  let iend : List ℕ := [73, 69, 78, 68]
  [137, 80, 78, 71, 13, 10, 26, 10] ++
    u32be 13 ++ ihdr ++ u32be (crc32 ihdr) ++
    u32be ((width * 4 + 6) * height + 6) ++ idat ++ u32be (crc32 idat) ++
    u32be 0 ++ iend ++ u32be (crc32 iend)

/-- `write_png(const Pixmap&, ...)`: reads `pixmap.get_height()` first —
undefined behaviour (division by zero) when the width is 0, hence `none` —
then emits the byte stream. -/
def writePng (pm : Pixmap) : Option (List ℕ) :=
  match pm.getHeightQ with
  | none => none
  | some h => some (pngBytes pm h)

end Raster

namespace Raster

/-! ## Small algebraic facts about the embedded data types -/

theorem point_add_def (a b c d : ℚ) :
    (⟨a, b⟩ + ⟨c, d⟩ : Point) = ⟨a + c, b + d⟩ := rfl

theorem point_sub_def (a b c d : ℚ) :
    (⟨a, b⟩ - ⟨c, d⟩ : Point) = ⟨a - c, b - d⟩ := rfl

theorem point_smul_def (a b f : ℚ) :
    (⟨a, b⟩ : Point) * f = (⟨a * f, b * f⟩ : Point) := rfl

theorem color_add_def (c d : Color) :
    c + d = ⟨c.r + d.r, c.g + d.g, c.b + d.b, c.a + d.a⟩ := rfl

theorem color_smul_def (c : Color) (f : ℚ) :
    c * f = (⟨c.r * f, c.g * f, c.b * f, c.a * f⟩ : Color) := rfl

theorem color_smul_zero (c : Color) : c * (0 : ℚ) = Color.transparent := by
  simp [color_smul_def, Color.transparent]

theorem color_smul_one (c : Color) : c * (1 : ℚ) = c := by
  simp [color_smul_def]

theorem transparent_add (c : Color) : Color.transparent + c = c := by
  simp [color_add_def, Color.transparent]

/-! ## C1: `rasterize_pixel` computes the pixel/trapezoid intersection area

Real-analysis toolkit: closed forms for the integral of a linear function and
of the positive part of a linear function over an interval. -/

theorem integral_linear (a b c d : ℝ) :
    ∫ y in a..b, (c + d * y) = c * (b - a) + d * (b ^ 2 - a ^ 2) / 2 := by
  have h1 : IntervalIntegrable (fun _ : ℝ => c) MeasureTheory.volume a b :=
    intervalIntegrable_const
  have h2 : IntervalIntegrable (fun y : ℝ => d * y) MeasureTheory.volume a b :=
    (continuous_const.mul continuous_id).intervalIntegrable a b
  rw [intervalIntegral.integral_add h1 h2, intervalIntegral.integral_const,
    intervalIntegral.integral_const_mul, integral_id]
  simp only [smul_eq_mul]
  ring

theorem continuous_relu_linear (c d : ℝ) :
    Continuous fun y : ℝ => max 0 (c + d * y) :=
  continuous_const.max (continuous_const.add (continuous_const.mul continuous_id))

/-- Positive part of a linear function that is nonnegative on `[a, b]`:
the `max` collapses. -/
theorem integral_relu_of_nonneg (a b c d : ℝ) (hab : a ≤ b)
    (h : ∀ y ∈ Set.Icc a b, 0 ≤ c + d * y) :
    ∫ y in a..b, max 0 (c + d * y) = c * (b - a) + d * (b ^ 2 - a ^ 2) / 2 := by
  have hEq : Set.EqOn (fun y : ℝ => max 0 (c + d * y)) (fun y : ℝ => c + d * y)
      (Set.uIcc a b) := by
    intro y hy
    exact max_eq_right (h y (by rwa [Set.uIcc_of_le hab] at hy))
  rw [intervalIntegral.integral_congr hEq]
  exact integral_linear a b c d

/-- Positive part of a linear function that is nonpositive on `[a, b]`:
the integral vanishes. -/
theorem integral_relu_of_nonpos (a b c d : ℝ) (hab : a ≤ b)
    (h : ∀ y ∈ Set.Icc a b, c + d * y ≤ 0) :
    ∫ y in a..b, max 0 (c + d * y) = 0 := by
  have hEq : Set.EqOn (fun y : ℝ => max 0 (c + d * y)) (fun _ : ℝ => (0 : ℝ))
      (Set.uIcc a b) := by
    intro y hy
    exact max_eq_left (h y (by rwa [Set.uIcc_of_le hab] at hy))
  rw [intervalIntegral.integral_congr hEq]
  simp

/-- Positive part of an increasing linear function crossing zero at
`t ∈ [a, b]`: only the upper part `[t, b]` contributes. -/
theorem integral_relu_pos_slope (s a b t : ℝ) (hs : 0 < s) (hat : a ≤ t)
    (htb : t ≤ b) :
    ∫ y in a..b, max 0 (s * (y - t)) = s * (b - t) ^ 2 / 2 := by
  have hfun : ∀ y : ℝ, s * (y - t) = -(s * t) + s * y := fun y => by ring
  have hint : ∀ u v : ℝ, IntervalIntegrable (fun y : ℝ => max 0 (s * (y - t)))
      MeasureTheory.volume u v := by
    intro u v
    have := continuous_relu_linear (-(s * t)) s
    simp only [← hfun] at this
    exact this.intervalIntegrable u v
  rw [← intervalIntegral.integral_add_adjacent_intervals (hint a t) (hint t b)]
  have h1 : ∫ y in a..t, max 0 (s * (y - t)) = 0 := by
    have hEq : Set.EqOn (fun y : ℝ => max 0 (s * (y - t))) (fun _ : ℝ => (0 : ℝ))
        (Set.uIcc a t) := by
      intro y hy
      rw [Set.uIcc_of_le hat] at hy
      exact max_eq_left (by nlinarith [hy.2])
    rw [intervalIntegral.integral_congr hEq]
    simp
  have h2 : ∫ y in t..b, max 0 (s * (y - t)) = s * (b - t) ^ 2 / 2 := by
    have hEq : Set.EqOn (fun y : ℝ => max 0 (s * (y - t)))
        (fun y : ℝ => -(s * t) + s * y) (Set.uIcc t b) := by
      intro y hy
      rw [Set.uIcc_of_le htb] at hy
      have h0 : (0 : ℝ) ≤ s * (y - t) := by nlinarith [hy.1]
      show max 0 (s * (y - t)) = -(s * t) + s * y
      rw [max_eq_right h0]; ring
    rw [intervalIntegral.integral_congr hEq, integral_linear]
    ring
  rw [h1, h2]; ring

/-- Positive part of a decreasing linear function crossing zero at
`t ∈ [a, b]`: only the lower part `[a, t]` contributes. -/
theorem integral_relu_neg_slope (s a b t : ℝ) (hs : s < 0) (hat : a ≤ t)
    (htb : t ≤ b) :
    ∫ y in a..b, max 0 (s * (y - t)) = -s * (t - a) ^ 2 / 2 := by
  have hfun : ∀ y : ℝ, s * (y - t) = -(s * t) + s * y := fun y => by ring
  have hint : ∀ u v : ℝ, IntervalIntegrable (fun y : ℝ => max 0 (s * (y - t)))
      MeasureTheory.volume u v := by
    intro u v
    have := continuous_relu_linear (-(s * t)) s
    simp only [← hfun] at this
    exact this.intervalIntegrable u v
  rw [← intervalIntegral.integral_add_adjacent_intervals (hint a t) (hint t b)]
  have h1 : ∫ y in a..t, max 0 (s * (y - t)) = -s * (t - a) ^ 2 / 2 := by
    have hEq : Set.EqOn (fun y : ℝ => max 0 (s * (y - t)))
        (fun y : ℝ => -(s * t) + s * y) (Set.uIcc a t) := by
      intro y hy
      rw [Set.uIcc_of_le hat] at hy
      have h0 : (0 : ℝ) ≤ s * (y - t) := by nlinarith [hy.2]
      show max 0 (s * (y - t)) = -(s * t) + s * y
      rw [max_eq_right h0]; ring
    rw [intervalIntegral.integral_congr hEq, integral_linear]
    ring
  have h2 : ∫ y in t..b, max 0 (s * (y - t)) = 0 := by
    have hEq : Set.EqOn (fun y : ℝ => max 0 (s * (y - t))) (fun _ : ℝ => (0 : ℝ))
        (Set.uIcc t b) := by
      intro y hy
      rw [Set.uIcc_of_le htb] at hy
      exact max_eq_left (by nlinarith [hy.1])
    rw [intervalIntegral.integral_congr hEq]
    simp
  rw [h1, h2]; ring

/-- On `[y0, y1]` the boundary line `lineY y0 y1 x0 x1` stays within
`[x0, x1]` (for `x0 ≤ x1`). -/
theorem lineY_mem_Icc (y0 y1 x0 x1 : ℝ) (h01 : y0 < y1) (hx : x0 ≤ x1) (y : ℝ)
    (hy : y ∈ Set.Icc y0 y1) : lineY y0 y1 x0 x1 y ∈ Set.Icc x0 x1 := by
  have hs : 0 ≤ (x1 - x0) / (y1 - y0) := div_nonneg (by linarith) (by linarith)
  constructor
  · have h0 : 0 ≤ (x1 - x0) / (y1 - y0) * (y - y0) :=
      mul_nonneg hs (by linarith [hy.1])
    simp only [lineY]; linarith
  · have h1 : (x1 - x0) / (y1 - y0) * (y - y0) ≤ (x1 - x0) / (y1 - y0) * (y1 - y0) :=
      mul_le_mul_of_nonneg_left (by linarith [hy.2]) hs
    have h2 : (x1 - x0) / (y1 - y0) * (y1 - y0) = x1 - x0 :=
      div_mul_cancel₀ _ (by linarith)
    simp only [lineY]; linarith

/-- Integral of the part of the left boundary right of the vertical `x = c`,
when `c` is left of the whole boundary (`c ≤ x0 ≤ x1`): the full trapezoid
between the boundary and the vertical. -/
theorem intRelu_line_low (y0 y1 x0 x1 c : ℝ) (h01 : y0 < y1) (hx : x0 ≤ x1)
    (hc : c ≤ x0) :
    ∫ y in y0..y1, max 0 (lineY y0 y1 x0 x1 y - c) =
      (y1 - y0) * (x0 + x1 - 2 * c) / 2 := by
  have hne : y1 - y0 ≠ 0 := ne_of_gt (by linarith)
  have hfun : (fun y : ℝ => max 0 (lineY y0 y1 x0 x1 y - c)) =
      fun y : ℝ => max 0 ((x0 - c - (x1 - x0) / (y1 - y0) * y0) +
        (x1 - x0) / (y1 - y0) * y) := by
    funext y; simp only [lineY]; ring_nf
  rw [hfun, integral_relu_of_nonneg _ _ _ _ h01.le]
  · field_simp
    ring
  · intro y hy
    have h0 := (lineY_mem_Icc y0 y1 x0 x1 h01 hx y hy).1
    simp only [lineY] at h0
    nlinarith [h0]

/-- When `c` is right of the whole left boundary (`x0 ≤ x1 ≤ c`), nothing of
the boundary lies right of the vertical. -/
theorem intRelu_line_high (y0 y1 x0 x1 c : ℝ) (h01 : y0 < y1) (hx : x0 ≤ x1)
    (hc : x1 ≤ c) :
    ∫ y in y0..y1, max 0 (lineY y0 y1 x0 x1 y - c) = 0 := by
  have hne : y1 - y0 ≠ 0 := ne_of_gt (by linarith)
  have hfun : (fun y : ℝ => max 0 (lineY y0 y1 x0 x1 y - c)) =
      fun y : ℝ => max 0 ((x0 - c - (x1 - x0) / (y1 - y0) * y0) +
        (x1 - x0) / (y1 - y0) * y) := by
    funext y; simp only [lineY]; ring_nf
  rw [hfun, integral_relu_of_nonpos _ _ _ _ h01.le]
  intro y hy
  have h0 := (lineY_mem_Icc y0 y1 x0 x1 h01 hx y hy).2
  simp only [lineY] at h0
  nlinarith [h0]

/-- When the vertical `x = c` crosses the (rising, since `x0 ≤ c < x1`) left
boundary inside the strip, only the part above the crossing contributes. -/
theorem intRelu_line_mid (y0 y1 x0 x1 c : ℝ) (h01 : y0 < y1) (hc0 : x0 ≤ c)
    (hc1 : c < x1) :
    ∫ y in y0..y1, max 0 (lineY y0 y1 x0 x1 y - c) =
      (y1 - (y0 + (c - x0) * (y1 - y0) / (x1 - x0))) * (x1 - c) / 2 := by
  have hxx : x0 < x1 := lt_of_le_of_lt hc0 hc1
  have hne : y1 - y0 ≠ 0 := ne_of_gt (by linarith)
  have hnex : x1 - x0 ≠ 0 := ne_of_gt (by linarith)
  have hs : 0 < (x1 - x0) / (y1 - y0) := div_pos (by linarith) (by linarith)
  have hfun : (fun y : ℝ => max 0 (lineY y0 y1 x0 x1 y - c)) =
      fun y : ℝ => max 0 ((x1 - x0) / (y1 - y0) *
        (y - (y0 + (c - x0) * (y1 - y0) / (x1 - x0)))) := by
    funext y
    congr 1
    simp only [lineY]
    field_simp
    ring
  have hat : y0 ≤ y0 + (c - x0) * (y1 - y0) / (x1 - x0) := by
    have : 0 ≤ (c - x0) * (y1 - y0) / (x1 - x0) :=
      div_nonneg (mul_nonneg (by linarith) (by linarith)) (by linarith)
    linarith
  have htb : y0 + (c - x0) * (y1 - y0) / (x1 - x0) ≤ y1 := by
    have h1 : (c - x0) * (y1 - y0) / (x1 - x0) ≤ (x1 - x0) * (y1 - y0) / (x1 - x0) := by
      apply div_le_div_of_nonneg_right ?_ (by linarith)
      · exact mul_le_mul_of_nonneg_right (by linarith) (by linarith)
    have h2 : (x1 - x0) * (y1 - y0) / (x1 - x0) = y1 - y0 := by
      field_simp
    linarith
  rw [hfun, integral_relu_pos_slope _ _ _ _ hs hat htb]
  have hkey : (x1 - x0) / (y1 - y0) *
      (y1 - (y0 + (c - x0) * (y1 - y0) / (x1 - x0))) = x1 - c := by
    field_simp
    ring
  calc (x1 - x0) / (y1 - y0) *
        (y1 - (y0 + (c - x0) * (y1 - y0) / (x1 - x0))) ^ 2 / 2
      = ((x1 - x0) / (y1 - y0) * (y1 - (y0 + (c - x0) * (y1 - y0) / (x1 - x0)))) *
          (y1 - (y0 + (c - x0) * (y1 - y0) / (x1 - x0))) / 2 := by ring
    _ = (y1 - (y0 + (c - x0) * (y1 - y0) / (x1 - x0))) * (x1 - c) / 2 := by
        rw [hkey]; ring

/-- Integral of the part of the vertical `x = c` right of the right boundary,
when `c` is right of the whole boundary (`x2 ≤ x3 ≤ c`). -/
theorem intRelu_vert_high (y0 y1 x2 x3 c : ℝ) (h01 : y0 < y1) (hx : x2 ≤ x3)
    (hc : x3 ≤ c) :
    ∫ y in y0..y1, max 0 (c - lineY y0 y1 x2 x3 y) =
      (y1 - y0) * (2 * c - x2 - x3) / 2 := by
  have hne : y1 - y0 ≠ 0 := ne_of_gt (by linarith)
  have hfun : (fun y : ℝ => max 0 (c - lineY y0 y1 x2 x3 y)) =
      fun y : ℝ => max 0 ((c - x2 + (x3 - x2) / (y1 - y0) * y0) +
        (-((x3 - x2) / (y1 - y0))) * y) := by
    funext y; simp only [lineY]; ring_nf
  rw [hfun, integral_relu_of_nonneg _ _ _ _ h01.le]
  · field_simp
    ring
  · intro y hy
    have h0 := (lineY_mem_Icc y0 y1 x2 x3 h01 hx y hy).2
    simp only [lineY] at h0
    nlinarith [h0]

/-- When `c` is left of the whole right boundary (`c ≤ x2 ≤ x3`), nothing of
the vertical lies right of the boundary. -/
theorem intRelu_vert_low (y0 y1 x2 x3 c : ℝ) (h01 : y0 < y1) (hx : x2 ≤ x3)
    (hc : c ≤ x2) :
    ∫ y in y0..y1, max 0 (c - lineY y0 y1 x2 x3 y) = 0 := by
  have hne : y1 - y0 ≠ 0 := ne_of_gt (by linarith)
  have hfun : (fun y : ℝ => max 0 (c - lineY y0 y1 x2 x3 y)) =
      fun y : ℝ => max 0 ((c - x2 + (x3 - x2) / (y1 - y0) * y0) +
        (-((x3 - x2) / (y1 - y0))) * y) := by
    funext y; simp only [lineY]; ring_nf
  rw [hfun, integral_relu_of_nonpos _ _ _ _ h01.le]
  intro y hy
  have h0 := (lineY_mem_Icc y0 y1 x2 x3 h01 hx y hy).1
  simp only [lineY] at h0
  nlinarith [h0]

/-- When the vertical `x = c` crosses the (rising, since `x2 < c ≤ x3`) right
boundary inside the strip, only the part below the crossing contributes. -/
theorem intRelu_vert_mid (y0 y1 x2 x3 c : ℝ) (h01 : y0 < y1) (hc2 : x2 < c)
    (hc3 : c ≤ x3) :
    ∫ y in y0..y1, max 0 (c - lineY y0 y1 x2 x3 y) =
      ((y0 + (c - x2) * (y1 - y0) / (x3 - x2)) - y0) * (c - x2) / 2 := by
  have hxx : x2 < x3 := lt_of_lt_of_le hc2 hc3
  have hne : y1 - y0 ≠ 0 := ne_of_gt (by linarith)
  have hnex : x3 - x2 ≠ 0 := ne_of_gt (by linarith)
  have hs : 0 < (x3 - x2) / (y1 - y0) := div_pos (by linarith) (by linarith)
  have hfun : (fun y : ℝ => max 0 (c - lineY y0 y1 x2 x3 y)) =
      fun y : ℝ => max 0 ((-((x3 - x2) / (y1 - y0))) *
        (y - (y0 + (c - x2) * (y1 - y0) / (x3 - x2)))) := by
    funext y
    congr 1
    simp only [lineY]
    field_simp
    ring
  have hat : y0 ≤ y0 + (c - x2) * (y1 - y0) / (x3 - x2) := by
    have : 0 ≤ (c - x2) * (y1 - y0) / (x3 - x2) :=
      div_nonneg (mul_nonneg (by linarith) (by linarith)) (by linarith)
    linarith
  have htb : y0 + (c - x2) * (y1 - y0) / (x3 - x2) ≤ y1 := by
    have h1 : (c - x2) * (y1 - y0) / (x3 - x2) ≤ (x3 - x2) * (y1 - y0) / (x3 - x2) := by
      apply div_le_div_of_nonneg_right ?_ (by linarith)
      · exact mul_le_mul_of_nonneg_right (by linarith) (by linarith)
    have h2 : (x3 - x2) * (y1 - y0) / (x3 - x2) = y1 - y0 := by
      field_simp
    linarith
  rw [hfun, integral_relu_neg_slope _ _ _ _ (by linarith : -((x3 - x2) / (y1 - y0)) < 0)
    hat htb]
  have hkey : (x3 - x2) / (y1 - y0) *
      ((y0 + (c - x2) * (y1 - y0) / (x3 - x2)) - y0) = c - x2 := by
    field_simp
    ring
  calc - -((x3 - x2) / (y1 - y0)) *
        ((y0 + (c - x2) * (y1 - y0) / (x3 - x2)) - y0) ^ 2 / 2
      = ((x3 - x2) / (y1 - y0) * ((y0 + (c - x2) * (y1 - y0) / (x3 - x2)) - y0)) *
          ((y0 + (c - x2) * (y1 - y0) / (x3 - x2)) - y0) / 2 := by ring
    _ = ((y0 + (c - x2) * (y1 - y0) / (x3 - x2)) - y0) * (c - x2) / 2 := by
        rw [hkey]; ring

/-- Pointwise inclusion–exclusion for the clipped width: for a slice
`[a, b]` and a pixel `[p, q]`, the clipped width decomposes into the pixel
width minus the two boundary overshoots plus the two add-backs — exactly the
five terms `rasterize_pixel` accumulates. -/
theorem clip_decomp (a b p q : ℝ) (hab : a ≤ b) (hpq : p ≤ q) :
    max 0 (min b q - max a p) =
      (q - p) - max 0 (a - p) - max 0 (q - b) + max 0 (a - q) + max 0 (p - b) := by
  simp only [max_def, min_def]
  split_ifs <;> linarith

/-- The left boundary of a trapezoid lies (pointwise on the strip) left of
the right boundary when it does so at both strip edges. -/
theorem lineY_le_lineY (y0 y1 x0 x1 x2 x3 : ℝ) (h01 : y0 < y1)
    (hL0 : x0 ≤ x2) (hL1 : x1 ≤ x3) (y : ℝ) (hy : y ∈ Set.Icc y0 y1) :
    lineY y0 y1 x0 x1 y ≤ lineY y0 y1 x2 x3 y := by
  have hu0 : 0 ≤ (y - y0) / (y1 - y0) := div_nonneg (by linarith [hy.1]) (by linarith)
  have hu1 : (y - y0) / (y1 - y0) ≤ 1 := (div_le_one (by linarith)).mpr (by linarith [hy.2])
  have hrw : ∀ xa xb : ℝ, lineY y0 y1 xa xb y = xa + (xb - xa) * ((y - y0) / (y1 - y0)) := by
    intro xa xb
    simp only [lineY]
    ring
  rw [hrw, hrw]
  nlinarith [mul_nonneg (sub_nonneg.mpr hL0) (sub_nonneg.mpr hu1),
    mul_nonneg (sub_nonneg.mpr hL1) hu0]

theorem continuous_lineY (y0 y1 xa xb : ℝ) : Continuous (lineY y0 y1 xa xb) :=
  continuous_const.add (continuous_const.mul (continuous_id.sub continuous_const))

/-- `columnArea` decomposed into the five integrals mirrored by the five
terms of `rasterize_pixel`. -/
theorem columnArea_decomp (T : Trapezoid) (x : ℤ)
    (h01 : (T.y0 : ℝ) < T.y1) (hL0 : (T.x0 : ℝ) ≤ T.x2) (hL1 : (T.x1 : ℝ) ≤ T.x3) :
    columnArea T x =
      ((T.y1 : ℝ) - T.y0)
      - (∫ y in (T.y0 : ℝ)..(T.y1 : ℝ), max 0 (lineY T.y0 T.y1 T.x0 T.x1 y - (x : ℝ)))
      - (∫ y in (T.y0 : ℝ)..(T.y1 : ℝ), max 0 (((x : ℝ) + 1) - lineY T.y0 T.y1 T.x2 T.x3 y))
      + (∫ y in (T.y0 : ℝ)..(T.y1 : ℝ), max 0 (lineY T.y0 T.y1 T.x0 T.x1 y - ((x : ℝ) + 1)))
      + (∫ y in (T.y0 : ℝ)..(T.y1 : ℝ), max 0 ((x : ℝ) - lineY T.y0 T.y1 T.x2 T.x3 y)) := by
  have cL := continuous_lineY (T.y0 : ℝ) (T.y1 : ℝ) (T.x0 : ℝ) (T.x1 : ℝ)
  have cR := continuous_lineY (T.y0 : ℝ) (T.y1 : ℝ) (T.x2 : ℝ) (T.x3 : ℝ)
  have c1 : Continuous fun y : ℝ => max 0 (lineY T.y0 T.y1 T.x0 T.x1 y - (x : ℝ)) :=
    continuous_const.max (cL.sub continuous_const)
  have c2 : Continuous fun y : ℝ => max 0 (((x : ℝ) + 1) - lineY T.y0 T.y1 T.x2 T.x3 y) :=
    continuous_const.max (continuous_const.sub cR)
  have c3 : Continuous fun y : ℝ => max 0 (lineY T.y0 T.y1 T.x0 T.x1 y - ((x : ℝ) + 1)) :=
    continuous_const.max (cL.sub continuous_const)
  have c4 : Continuous fun y : ℝ => max 0 ((x : ℝ) - lineY T.y0 T.y1 T.x2 T.x3 y) :=
    continuous_const.max (continuous_const.sub cR)
  have hEq : Set.EqOn
      (fun y : ℝ => max 0 (min (lineY T.y0 T.y1 T.x2 T.x3 y) ((x : ℝ) + 1) -
        max (lineY T.y0 T.y1 T.x0 T.x1 y) (x : ℝ)))
      (fun y : ℝ => (((x : ℝ) + 1) - (x : ℝ))
        - max 0 (lineY T.y0 T.y1 T.x0 T.x1 y - (x : ℝ))
        - max 0 (((x : ℝ) + 1) - lineY T.y0 T.y1 T.x2 T.x3 y)
        + max 0 (lineY T.y0 T.y1 T.x0 T.x1 y - ((x : ℝ) + 1))
        + max 0 ((x : ℝ) - lineY T.y0 T.y1 T.x2 T.x3 y))
      (Set.uIcc (T.y0 : ℝ) (T.y1 : ℝ)) := by
    intro y hy
    rw [Set.uIcc_of_le h01.le] at hy
    exact clip_decomp _ _ _ _
      (lineY_le_lineY _ _ _ _ _ _ h01 hL0 hL1 y hy) (by linarith)
  have hpush : (x : ℝ) + 1 = ((x : ℤ) : ℝ) + 1 := by norm_num
  unfold columnArea
  rw [intervalIntegral.integral_congr hEq]
  have i1 : IntervalIntegrable (fun y : ℝ => max 0 (lineY T.y0 T.y1 T.x0 T.x1 y - (x : ℝ)))
      MeasureTheory.volume (T.y0 : ℝ) (T.y1 : ℝ) := c1.intervalIntegrable _ _
  have i2 : IntervalIntegrable
      (fun y : ℝ => max 0 (((x : ℝ) + 1) - lineY T.y0 T.y1 T.x2 T.x3 y))
      MeasureTheory.volume (T.y0 : ℝ) (T.y1 : ℝ) := c2.intervalIntegrable _ _
  have i3 : IntervalIntegrable
      (fun y : ℝ => max 0 (lineY T.y0 T.y1 T.x0 T.x1 y - ((x : ℝ) + 1)))
      MeasureTheory.volume (T.y0 : ℝ) (T.y1 : ℝ) := c3.intervalIntegrable _ _
  have i4 : IntervalIntegrable (fun y : ℝ => max 0 ((x : ℝ) - lineY T.y0 T.y1 T.x2 T.x3 y))
      MeasureTheory.volume (T.y0 : ℝ) (T.y1 : ℝ) := c4.intervalIntegrable _ _
  have iconst : IntervalIntegrable (fun _ : ℝ => ((x : ℝ) + 1) - (x : ℝ))
      MeasureTheory.volume (T.y0 : ℝ) (T.y1 : ℝ) := intervalIntegrable_const
  rw [intervalIntegral.integral_add (((iconst.sub i1).sub i2).add i3) i4,
    intervalIntegral.integral_add ((iconst.sub i1).sub i2) i3,
    intervalIntegral.integral_sub (iconst.sub i1) i2,
    intervalIntegral.integral_sub iconst i1,
    intervalIntegral.integral_const]
  simp only [smul_eq_mul]
  ring

/-- The y at which the line through `(xa, y0)`, `(xb, y1)` reaches the
vertical `x = c` (rational computation performed by `rasterize_pixel`). -/
theorem intersect_line_vert (xa y0 xb y1 c : ℚ) (h01 : y0 ≠ y1) (hx : xa ≠ xb) :
    intersect (Line.ofPoints ⟨xa, y0⟩ ⟨xb, y1⟩) (Line.ofX c) =
      y0 + (c - xa) * (y1 - y0) / (xb - xa) := by
  have h01s : y1 - y0 ≠ 0 := sub_ne_zero.mpr (Ne.symm h01)
  have hxs : xb - xa ≠ 0 := sub_ne_zero.mpr (Ne.symm hx)
  have hm : (xb - xa) / (y1 - y0) ≠ 0 := div_ne_zero hxs h01s
  simp only [intersect, Line.ofPoints, Line.ofSlopePoint, Line.ofX]
  field_simp
  ring

/-- The left-correction accumulation equals the two left-boundary integrals
of `columnArea`'s decomposition, for a pixel column reaching at least the
boundary's low x (`x0 ≤ p+1`). -/
theorem leftCorrection_eq (T : Trapezoid) (p : ℚ) (h01 : T.y0 < T.y1)
    (hx : T.x0 ≤ T.x1) (hp : T.x0 ≤ p + 1) :
    (leftCorrection T.y0 T.y1 T.x0 T.x1 p (p + 1) : ℝ) =
      -(∫ y in (T.y0 : ℝ)..(T.y1 : ℝ),
          max 0 (lineY T.y0 T.y1 T.x0 T.x1 y - (p : ℝ)))
      + (∫ y in (T.y0 : ℝ)..(T.y1 : ℝ),
          max 0 (lineY T.y0 T.y1 T.x0 T.x1 y - ((p : ℝ) + 1))) := by
  have h01R : (T.y0 : ℝ) < (T.y1 : ℝ) := by exact_mod_cast h01
  have hxR : (T.x0 : ℝ) ≤ (T.x1 : ℝ) := by exact_mod_cast hx
  have hpR : (T.x0 : ℝ) ≤ (p : ℝ) + 1 := by exact_mod_cast hp
  have h01ne : T.y0 ≠ T.y1 := ne_of_lt h01
  unfold leftCorrection
  split_ifs with h1 h2 h3 h3
  · -- p < x1, p < x0, p+1 < x1
    have hI1 := intRelu_line_low (T.y0 : ℝ) (T.y1 : ℝ) (T.x0 : ℝ) (T.x1 : ℝ) (p : ℝ)
      h01R hxR (by exact_mod_cast h2.le)
    have hI2 := intRelu_line_mid (T.y0 : ℝ) (T.y1 : ℝ) (T.x0 : ℝ) (T.x1 : ℝ) ((p : ℝ) + 1)
      h01R hpR (by exact_mod_cast h3)
    rw [hI1, hI2, intersect_line_vert _ _ _ _ _ h01ne (ne_of_lt (by linarith))]
    simp only [Trapezoid.get_area]
    push_cast
    ring
  · -- p < x1, p < x0, ¬(p+1 < x1)
    have hI1 := intRelu_line_low (T.y0 : ℝ) (T.y1 : ℝ) (T.x0 : ℝ) (T.x1 : ℝ) (p : ℝ)
      h01R hxR (by exact_mod_cast h2.le)
    have hI2 := intRelu_line_high (T.y0 : ℝ) (T.y1 : ℝ) (T.x0 : ℝ) (T.x1 : ℝ) ((p : ℝ) + 1)
      h01R hxR (by exact_mod_cast not_lt.mp h3)
    rw [hI1, hI2]
    simp only [Trapezoid.get_area]
    push_cast
    ring
  · -- p < x1, ¬(p < x0), p+1 < x1
    have hx0p : T.x0 ≤ p := not_lt.mp h2
    have hI1 := intRelu_line_mid (T.y0 : ℝ) (T.y1 : ℝ) (T.x0 : ℝ) (T.x1 : ℝ) (p : ℝ)
      h01R (by exact_mod_cast hx0p) (by exact_mod_cast h1)
    have hI2 := intRelu_line_mid (T.y0 : ℝ) (T.y1 : ℝ) (T.x0 : ℝ) (T.x1 : ℝ) ((p : ℝ) + 1)
      h01R hpR (by exact_mod_cast h3)
    rw [hI1, hI2, intersect_line_vert _ _ _ _ _ h01ne (ne_of_lt (by linarith)),
      intersect_line_vert _ _ _ _ _ h01ne (ne_of_lt (by linarith))]
    simp only [Trapezoid.get_area]
    push_cast
    ring
  · -- p < x1, ¬(p < x0), ¬(p+1 < x1)
    have hx0p : T.x0 ≤ p := not_lt.mp h2
    have hI1 := intRelu_line_mid (T.y0 : ℝ) (T.y1 : ℝ) (T.x0 : ℝ) (T.x1 : ℝ) (p : ℝ)
      h01R (by exact_mod_cast hx0p) (by exact_mod_cast h1)
    have hI2 := intRelu_line_high (T.y0 : ℝ) (T.y1 : ℝ) (T.x0 : ℝ) (T.x1 : ℝ) ((p : ℝ) + 1)
      h01R hxR (by exact_mod_cast not_lt.mp h3)
    rw [hI1, hI2, intersect_line_vert _ _ _ _ _ h01ne (ne_of_lt (by linarith))]
    simp only [Trapezoid.get_area]
    push_cast
    ring
  · -- ¬(p < x1)
    have hx1p : T.x1 ≤ p := not_lt.mp h1
    have hI1 := intRelu_line_high (T.y0 : ℝ) (T.y1 : ℝ) (T.x0 : ℝ) (T.x1 : ℝ) (p : ℝ)
      h01R hxR (by exact_mod_cast hx1p)
    have hI2 := intRelu_line_high (T.y0 : ℝ) (T.y1 : ℝ) (T.x0 : ℝ) (T.x1 : ℝ) ((p : ℝ) + 1)
      h01R hxR (by push_cast; linarith [(show (T.x1 : ℝ) ≤ (p : ℝ) by exact_mod_cast hx1p)])
    rw [hI1, hI2]
    push_cast
    ring

/-- The right-correction accumulation equals the two right-boundary integrals
of `columnArea`'s decomposition, for a pixel column starting at or before the
boundary's high x (`p ≤ x3`). -/
theorem rightCorrection_eq (T : Trapezoid) (p : ℚ) (h01 : T.y0 < T.y1)
    (hx : T.x2 ≤ T.x3) (hp : p ≤ T.x3) :
    (rightCorrection T.y0 T.y1 T.x2 T.x3 p (p + 1) : ℝ) =
      -(∫ y in (T.y0 : ℝ)..(T.y1 : ℝ),
          max 0 (((p : ℝ) + 1) - lineY T.y0 T.y1 T.x2 T.x3 y))
      + (∫ y in (T.y0 : ℝ)..(T.y1 : ℝ),
          max 0 ((p : ℝ) - lineY T.y0 T.y1 T.x2 T.x3 y)) := by
  have h01R : (T.y0 : ℝ) < (T.y1 : ℝ) := by exact_mod_cast h01
  have hxR : (T.x2 : ℝ) ≤ (T.x3 : ℝ) := by exact_mod_cast hx
  have hpR : (p : ℝ) ≤ (T.x3 : ℝ) := by exact_mod_cast hp
  have h01ne : T.y0 ≠ T.y1 := ne_of_lt h01
  unfold rightCorrection
  split_ifs with h1 h2 h3 h3
  · -- x2 < p+1, x3 < p+1, x2 < p
    have hJ1 := intRelu_vert_high (T.y0 : ℝ) (T.y1 : ℝ) (T.x2 : ℝ) (T.x3 : ℝ) ((p : ℝ) + 1)
      h01R hxR (by exact_mod_cast h2.le)
    have hJ2 := intRelu_vert_mid (T.y0 : ℝ) (T.y1 : ℝ) (T.x2 : ℝ) (T.x3 : ℝ) (p : ℝ)
      h01R (by exact_mod_cast h3) hpR
    rw [hJ1, hJ2, intersect_line_vert _ _ _ _ _ h01ne (ne_of_lt (by linarith))]
    simp only [Trapezoid.get_area]
    push_cast
    ring
  · -- x2 < p+1, x3 < p+1, ¬(x2 < p)
    have hJ1 := intRelu_vert_high (T.y0 : ℝ) (T.y1 : ℝ) (T.x2 : ℝ) (T.x3 : ℝ) ((p : ℝ) + 1)
      h01R hxR (by exact_mod_cast h2.le)
    have hJ2 := intRelu_vert_low (T.y0 : ℝ) (T.y1 : ℝ) (T.x2 : ℝ) (T.x3 : ℝ) (p : ℝ)
      h01R hxR (by exact_mod_cast not_lt.mp h3)
    rw [hJ1, hJ2]
    simp only [Trapezoid.get_area]
    push_cast
    ring
  · -- x2 < p+1, ¬(x3 < p+1), x2 < p
    have hJ1 := intRelu_vert_mid (T.y0 : ℝ) (T.y1 : ℝ) (T.x2 : ℝ) (T.x3 : ℝ) ((p : ℝ) + 1)
      h01R (by exact_mod_cast h1) (by exact_mod_cast not_lt.mp h2)
    have hJ2 := intRelu_vert_mid (T.y0 : ℝ) (T.y1 : ℝ) (T.x2 : ℝ) (T.x3 : ℝ) (p : ℝ)
      h01R (by exact_mod_cast h3) hpR
    rw [hJ1, hJ2, intersect_line_vert _ _ _ _ _ h01ne (ne_of_lt (by linarith)),
      intersect_line_vert _ _ _ _ _ h01ne (ne_of_lt (by linarith))]
    simp only [Trapezoid.get_area]
    push_cast
    ring
  · -- x2 < p+1, ¬(x3 < p+1), ¬(x2 < p)
    have hJ1 := intRelu_vert_mid (T.y0 : ℝ) (T.y1 : ℝ) (T.x2 : ℝ) (T.x3 : ℝ) ((p : ℝ) + 1)
      h01R (by exact_mod_cast h1) (by exact_mod_cast not_lt.mp h2)
    have hJ2 := intRelu_vert_low (T.y0 : ℝ) (T.y1 : ℝ) (T.x2 : ℝ) (T.x3 : ℝ) (p : ℝ)
      h01R hxR (by exact_mod_cast not_lt.mp h3)
    rw [hJ1, hJ2, intersect_line_vert _ _ _ _ _ h01ne (ne_of_lt (by linarith))]
    simp only [Trapezoid.get_area]
    push_cast
    ring
  · -- ¬(x2 < p+1)
    have hx2p : p + 1 ≤ T.x2 := not_lt.mp h1
    have hJ1 := intRelu_vert_low (T.y0 : ℝ) (T.y1 : ℝ) (T.x2 : ℝ) (T.x3 : ℝ) ((p : ℝ) + 1)
      h01R hxR (by exact_mod_cast hx2p)
    have hJ2 := intRelu_vert_low (T.y0 : ℝ) (T.y1 : ℝ) (T.x2 : ℝ) (T.x3 : ℝ) (p : ℝ)
      h01R hxR (by push_cast; linarith [(show (p : ℝ) + 1 ≤ (T.x2 : ℝ) by exact_mod_cast hx2p)])
    rw [hJ1, hJ2]
    push_cast
    ring

/-- For a pixel column meeting the trapezoid's x-range, `rasterize_pixel`
computes exactly the intersection area. -/
theorem rasterize_pixel_eq_columnArea (T : Trapezoid) (x : ℤ)
    (hx01 : T.x0 ≤ T.x1) (hx23 : T.x2 ≤ T.x3) (hL0 : T.x0 ≤ T.x2) (hL1 : T.x1 ≤ T.x3)
    (h01 : T.y0 < T.y1) (hcol3 : (x : ℚ) ≤ T.x3) (hcol0 : T.x0 ≤ (x : ℚ) + 1) :
    (rasterize_pixel T x : ℝ) = columnArea T x := by
  rw [columnArea_decomp T x (by exact_mod_cast h01) (by exact_mod_cast hL0)
    (by exact_mod_cast hL1)]
  have hl := leftCorrection_eq T (x : ℚ) h01 hx01 hcol0
  have hr := rightCorrection_eq T (x : ℚ) h01 hx23 hcol3
  push_cast at hl hr
  simp only [rasterize_pixel]
  push_cast
  rw [hl, hr]
  ring

/-- The clipped-width integrand is nonnegative, so `columnArea` is. -/
theorem columnArea_nonneg (T : Trapezoid) (x : ℤ) (h01 : (T.y0 : ℝ) ≤ (T.y1 : ℝ)) :
    0 ≤ columnArea T x :=
  intervalIntegral.integral_nonneg h01 fun _ _ => le_max_left _ _

/-- The clipped-width integrand is at most 1 (the pixel width), so
`columnArea` is at most the strip height. -/
theorem columnArea_le_height (T : Trapezoid) (x : ℤ) (h01 : (T.y0 : ℝ) ≤ (T.y1 : ℝ)) :
    columnArea T x ≤ (T.y1 : ℝ) - (T.y0 : ℝ) := by
  have cL := continuous_lineY (T.y0 : ℝ) (T.y1 : ℝ) (T.x0 : ℝ) (T.x1 : ℝ)
  have cR := continuous_lineY (T.y0 : ℝ) (T.y1 : ℝ) (T.x2 : ℝ) (T.x3 : ℝ)
  have cInt : Continuous fun y : ℝ =>
      max 0 (min (lineY T.y0 T.y1 T.x2 T.x3 y) ((x : ℝ) + 1) -
        max (lineY T.y0 T.y1 T.x0 T.x1 y) (x : ℝ)) :=
    continuous_const.max ((cR.min continuous_const).sub (cL.max continuous_const))
  have hmono : ∀ y ∈ Set.Icc (T.y0 : ℝ) (T.y1 : ℝ),
      max 0 (min (lineY T.y0 T.y1 T.x2 T.x3 y) ((x : ℝ) + 1) -
        max (lineY T.y0 T.y1 T.x0 T.x1 y) (x : ℝ)) ≤ (1 : ℝ) := by
    intro y _
    refine max_le zero_le_one ?_
    have h1 := min_le_right (lineY T.y0 T.y1 T.x2 T.x3 y) ((x : ℝ) + 1)
    have h2 := le_max_right (lineY T.y0 T.y1 T.x0 T.x1 y) (x : ℝ)
    linarith
  have iInt : IntervalIntegrable (fun y : ℝ =>
      max 0 (min (lineY T.y0 T.y1 T.x2 T.x3 y) ((x : ℝ) + 1) -
        max (lineY T.y0 T.y1 T.x0 T.x1 y) (x : ℝ)))
      MeasureTheory.volume (T.y0 : ℝ) (T.y1 : ℝ) := cInt.intervalIntegrable _ _
  have hle := intervalIntegral.integral_mono_on h01 iInt intervalIntegrable_const hmono
  calc columnArea T x ≤ ∫ _ in (T.y0 : ℝ)..(T.y1 : ℝ), (1 : ℝ) := hle
    _ = (T.y1 : ℝ) - (T.y0 : ℝ) := by
        rw [intervalIntegral.integral_const]
        simp

theorem icc_insert_top (m n : ℤ) (h : m ≤ n + 1) :
    Finset.Icc m (n + 1) = insert (n + 1) (Finset.Icc m n) := by
  ext k
  simp only [Finset.mem_Icc, Finset.mem_insert]
  omega

/-- Partition of a slice `[a, b]` over the integer pixel columns `m..n`
covering it: the clipped widths sum to the slice width. -/
theorem sum_clip (m : ℤ) (a : ℝ) (hma : (m : ℝ) ≤ a) :
    ∀ n : ℤ, m ≤ n → ∀ b : ℝ, a ≤ b → b ≤ (n : ℝ) + 1 →
      ∑ k ∈ Finset.Icc m n, max 0 (min b ((k : ℝ) + 1) - max a (k : ℝ)) = b - a := by
  refine Int.le_induction ?_ ?_
  · intro b hab hb1
    rw [Finset.Icc_self, Finset.sum_singleton, max_eq_left hma, min_eq_left hb1,
      max_eq_right (by linarith)]
  · intro n hmn ih b hab hb1
    have hicc : Finset.Icc m (n + 1) = insert (n + 1) (Finset.Icc m n) :=
      icc_insert_top m n (by omega)
    have hnot : (n + 1) ∉ Finset.Icc m n := by
      simp [Finset.mem_Icc]
    rw [hicc, Finset.sum_insert hnot]
    have hcast : ((n + 1 : ℤ) : ℝ) = (n : ℝ) + 1 := by push_cast; ring
    have hb2 : b ≤ (n : ℝ) + 1 + 1 := by rw [hcast] at hb1; linarith
    have hcong : ∑ k ∈ Finset.Icc m n, max 0 (min b ((k : ℝ) + 1) - max a (k : ℝ)) =
        ∑ k ∈ Finset.Icc m n,
          max 0 (min (min b ((n : ℝ) + 1)) ((k : ℝ) + 1) - max a (k : ℝ)) := by
      refine Finset.sum_congr rfl fun k hk => ?_
      have hk2 : k ≤ n := (Finset.mem_Icc.mp hk).2
      have hkn : (k : ℝ) + 1 ≤ (n : ℝ) + 1 := by
        have : (k : ℝ) ≤ (n : ℝ) := by exact_mod_cast hk2
        linarith
      rw [min_assoc, min_eq_right hkn]
    rcases le_or_lt a (min b ((n : ℝ) + 1)) with hcase | hcase
    · rw [hcong, ih (min b ((n : ℝ) + 1)) hcase (min_le_right _ _), hcast]
      have ha1 : a ≤ (n : ℝ) + 1 := le_trans hcase (min_le_right _ _)
      rw [max_eq_right ha1, min_eq_left (by linarith : b ≤ (n : ℝ) + 1 + 1)]
      rcases le_total b ((n : ℝ) + 1) with hb | hb
      · rw [min_eq_left hb, max_eq_left (by linarith)]; ring
      · rw [min_eq_right hb, max_eq_right (by linarith)]; ring
    · have hn1a : (n : ℝ) + 1 < a :=
        (min_lt_iff.mp hcase).resolve_left (not_lt.mpr hab)
      have hsum0 : ∑ k ∈ Finset.Icc m n,
          max 0 (min b ((k : ℝ) + 1) - max a (k : ℝ)) = 0 := by
        refine Finset.sum_eq_zero fun k hk => ?_
        have hk2 : k ≤ n := (Finset.mem_Icc.mp hk).2
        have hkn : (k : ℝ) + 1 ≤ (n : ℝ) + 1 := by
          have : (k : ℝ) ≤ (n : ℝ) := by exact_mod_cast hk2
          linarith
        refine max_eq_left ?_
        have h1 := min_le_right b ((k : ℝ) + 1)
        have h2 := le_max_left a (k : ℝ)
        linarith
      rw [hsum0, hcast, max_eq_left hn1a.le, min_eq_left hb2,
        max_eq_right (by linarith)]
      ring

/-- Summed over the pixel columns covering its x-range, `rasterize_pixel`
recovers the trapezoid's total area `get_area`. -/
theorem sum_rasterize_pixel (T : Trapezoid)
    (hx01 : T.x0 ≤ T.x1) (hx23 : T.x2 ≤ T.x3) (hL0 : T.x0 ≤ T.x2) (hL1 : T.x1 ≤ T.x3)
    (h01 : T.y0 < T.y1) :
    ∑ x ∈ Finset.Icc (⌈T.x0⌉ - 1) ⌊T.x3⌋, rasterize_pixel T x = T.get_area := by
  have h01R : (T.y0 : ℝ) < (T.y1 : ℝ) := by exact_mod_cast h01
  have hx01R : (T.x0 : ℝ) ≤ (T.x1 : ℝ) := by exact_mod_cast hx01
  have hx23R : (T.x2 : ℝ) ≤ (T.x3 : ℝ) := by exact_mod_cast hx23
  have hL0R : (T.x0 : ℝ) ≤ (T.x2 : ℝ) := by exact_mod_cast hL0
  have hL1R : (T.x1 : ℝ) ≤ (T.x3 : ℝ) := by exact_mod_cast hL1
  have hmn : ⌈T.x0⌉ - 1 ≤ ⌊T.x3⌋ := by
    have h1 : ⌈T.x0⌉ ≤ ⌈T.x3⌉ := Int.ceil_le_ceil (le_trans hL0 hx23)
    have h2 : ⌈T.x3⌉ ≤ ⌊T.x3⌋ + 1 := Int.ceil_le_floor_add_one T.x3
    omega
  have hcols : ∀ x ∈ Finset.Icc (⌈T.x0⌉ - 1) ⌊T.x3⌋,
      ((rasterize_pixel T x : ℚ) : ℝ) = columnArea T x := by
    intro x hx
    obtain ⟨hx1, hx2⟩ := Finset.mem_Icc.mp hx
    refine rasterize_pixel_eq_columnArea T x hx01 hx23 hL0 hL1 h01 (Int.le_floor.mp hx2) ?_
    have hceil : ⌈T.x0⌉ ≤ x + 1 := by omega
    have := Int.ceil_le.mp hceil
    push_cast at this ⊢
    linarith
  have key : ((∑ x ∈ Finset.Icc (⌈T.x0⌉ - 1) ⌊T.x3⌋, rasterize_pixel T x : ℚ) : ℝ) =
      ((T.get_area : ℚ) : ℝ) := by
    push_cast
    rw [Finset.sum_congr rfl hcols]
    have cL := continuous_lineY (T.y0 : ℝ) (T.y1 : ℝ) (T.x0 : ℝ) (T.x1 : ℝ)
    have cR := continuous_lineY (T.y0 : ℝ) (T.y1 : ℝ) (T.x2 : ℝ) (T.x3 : ℝ)
    have hintg : ∀ x ∈ Finset.Icc (⌈T.x0⌉ - 1) ⌊T.x3⌋,
        IntervalIntegrable (fun y : ℝ =>
          max 0 (min (lineY T.y0 T.y1 T.x2 T.x3 y) ((x : ℝ) + 1) -
            max (lineY T.y0 T.y1 T.x0 T.x1 y) (x : ℝ)))
          MeasureTheory.volume (T.y0 : ℝ) (T.y1 : ℝ) := by
      intro x _
      exact (continuous_const.max ((cR.min continuous_const).sub
        (cL.max continuous_const))).intervalIntegrable _ _
    have hsum := (intervalIntegral.integral_finset_sum hintg).symm
    calc ∑ x ∈ Finset.Icc (⌈T.x0⌉ - 1) ⌊T.x3⌋, columnArea T x
        = ∫ y in (T.y0 : ℝ)..(T.y1 : ℝ), ∑ x ∈ Finset.Icc (⌈T.x0⌉ - 1) ⌊T.x3⌋,
            max 0 (min (lineY T.y0 T.y1 T.x2 T.x3 y) ((x : ℝ) + 1) -
              max (lineY T.y0 T.y1 T.x0 T.x1 y) (x : ℝ)) := by
          unfold columnArea
          exact hsum
      _ = ∫ y in (T.y0 : ℝ)..(T.y1 : ℝ),
            (lineY T.y0 T.y1 T.x2 T.x3 y - lineY T.y0 T.y1 T.x0 T.x1 y) := by
          refine intervalIntegral.integral_congr fun y hy => ?_
          rw [Set.uIcc_of_le h01R.le] at hy
          have hLy := lineY_mem_Icc (T.y0 : ℝ) (T.y1 : ℝ) (T.x0 : ℝ) (T.x1 : ℝ)
            h01R hx01R y hy
          have hRy := lineY_mem_Icc (T.y0 : ℝ) (T.y1 : ℝ) (T.x2 : ℝ) (T.x3 : ℝ)
            h01R hx23R y hy
          refine sum_clip (⌈T.x0⌉ - 1) (lineY T.y0 T.y1 T.x0 T.x1 y) ?_ ⌊T.x3⌋ hmn
            (lineY T.y0 T.y1 T.x2 T.x3 y)
            (lineY_le_lineY _ _ _ _ _ _ h01R hL0R hL1R y hy) ?_
          · have h1 : ((⌈T.x0⌉ - 1 : ℤ) : ℚ) ≤ T.x0 := by
              have := Int.ceil_lt_add_one T.x0
              push_cast
              linarith
            have h2 : ((⌈T.x0⌉ - 1 : ℤ) : ℝ) ≤ (T.x0 : ℝ) := by exact_mod_cast h1
            linarith [hLy.1]
          · have h1 : T.x3 ≤ ((⌊T.x3⌋ : ℤ) : ℚ) + 1 := by
              have := Int.lt_floor_add_one T.x3
              push_cast
              linarith
            have h2 : (T.x3 : ℝ) ≤ ((⌊T.x3⌋ : ℤ) : ℝ) + 1 := by exact_mod_cast h1
            linarith [hRy.2]
      _ = ((T.get_area : ℚ) : ℝ) := by
          have hne : (T.y1 : ℝ) - (T.y0 : ℝ) ≠ 0 := ne_of_gt (by linarith)
          have hfun : (fun y : ℝ =>
              lineY T.y0 T.y1 T.x2 T.x3 y - lineY T.y0 T.y1 T.x0 T.x1 y) =
              fun y : ℝ => ((T.x2 : ℝ) - T.x0 -
                (((T.x3 : ℝ) - T.x2) / ((T.y1 : ℝ) - T.y0) -
                  ((T.x1 : ℝ) - T.x0) / ((T.y1 : ℝ) - T.y0)) * T.y0) +
                (((T.x3 : ℝ) - T.x2) / ((T.y1 : ℝ) - T.y0) -
                  ((T.x1 : ℝ) - T.x0) / ((T.y1 : ℝ) - T.y0)) * y := by
            funext y
            simp only [lineY]
            ring
          rw [hfun, integral_linear]
          simp only [Trapezoid.get_area]
          push_cast
          field_simp
          ring
  exact_mod_cast key

/-- **C1 (amended).**  For every trapezoid whose left side satisfies
`x0 ≤ x1`, whose right side satisfies `x2 ≤ x3`, whose left boundary lies
left of its right boundary throughout `[y0, y1]` (at both strip edges:
`x0 ≤ x2` and `x1 ≤ x3`), and with `0 < y1 - y0 ≤ 1`: for every integer
column `x` whose pixel interval `[x, x+1]` meets the trapezoid's x-range
`[x0, x3]` (the columns `rasterize_row` evaluates), `rasterize_pixel` returns
in exact arithmetic the area of the intersection of the trapezoid with the
pixel column `[x, x+1] × [y0, y1]`, and `0 ≤ A(x) ≤ 1`; the sum of `A(x)`
over the covering columns `⌈x0⌉-1 .. ⌊x3⌋` equals the trapezoid's total area
`(y1-y0)·(x2+x3-x0-x1)/2` (`get_area`).  (The original claim's "every
integer column" fails for columns outside the x-range, and exactness fails
for `y0 = y1`, where the code divides by zero — see the counterexample.) -/
theorem C1_rasterize_pixel_exact_area (T : Trapezoid)
    (hx01 : T.x0 ≤ T.x1) (hx23 : T.x2 ≤ T.x3) (hL0 : T.x0 ≤ T.x2) (hL1 : T.x1 ≤ T.x3)
    (h01 : T.y0 < T.y1) (hle1 : T.y1 - T.y0 ≤ 1) :
    (∀ x : ℤ, (x : ℚ) ≤ T.x3 → T.x0 ≤ (x : ℚ) + 1 →
      (rasterize_pixel T x : ℝ) = columnArea T x ∧
        0 ≤ rasterize_pixel T x ∧ rasterize_pixel T x ≤ 1) ∧
    ∑ x ∈ Finset.Icc (⌈T.x0⌉ - 1) ⌊T.x3⌋, rasterize_pixel T x = T.get_area := by
  have h01R : (T.y0 : ℝ) ≤ (T.y1 : ℝ) := by exact_mod_cast h01.le
  constructor
  · intro x hc3 hc0
    have heq := rasterize_pixel_eq_columnArea T x hx01 hx23 hL0 hL1 h01 hc3 hc0
    refine ⟨heq, ?_, ?_⟩
    · have h0 : (0 : ℝ) ≤ (rasterize_pixel T x : ℝ) := by
        rw [heq]; exact columnArea_nonneg T x h01R
      exact_mod_cast h0
    · have h1 : (rasterize_pixel T x : ℝ) ≤ (T.y1 : ℝ) - (T.y0 : ℝ) := by
        rw [heq]; exact columnArea_le_height T x h01R
      have h2 : (T.y1 : ℝ) - (T.y0 : ℝ) ≤ 1 := by exact_mod_cast hle1
      have h3 : (rasterize_pixel T x : ℝ) ≤ 1 := h1.trans h2
      exact_mod_cast h3
  · exact sum_rasterize_pixel T hx01 hx23 hL0 hL1 h01

/-- Witness for C1: the trapezoid with vertical left side at `x = 0` and
right side running from `(1, 0)` to `(2, 1)`, on the strip `0 ≤ y ≤ 1`,
evaluated at column 1. -/
theorem C1_witness :
    (rasterize_pixel ⟨0, 1, 0, 0, 1, 2⟩ 1 : ℝ) = columnArea ⟨0, 1, 0, 0, 1, 2⟩ 1 ∧
      0 ≤ rasterize_pixel ⟨0, 1, 0, 0, 1, 2⟩ 1 ∧
        rasterize_pixel ⟨0, 1, 0, 0, 1, 2⟩ 1 ≤ 1 :=
  (C1_rasterize_pixel_exact_area ⟨0, 1, 0, 0, 1, 2⟩ (le_refl 0) one_le_two
    zero_le_one zero_le_two zero_lt_one (by simp)).1 1 (by simp) (by simp)

/-- Counterexample for C1 as frozen: the same trapezoid satisfies every
hypothesis of the claim, yet at the integer column `x = 3` (outside the
trapezoid's x-range `[0, 2]`) `rasterize_pixel` returns `1/2` while the true
intersection area is `0`. -/
theorem C1_counterexample :
    rasterize_pixel ⟨0, 1, 0, 0, 1, 2⟩ 3 = 1 / 2 ∧
      columnArea ⟨0, 1, 0, 0, 1, 2⟩ 3 = 0 ∧ ¬ (((1 : ℚ) / 2 : ℚ) : ℝ) = 0 := by
  refine ⟨?_, ?_, by norm_num⟩
  · norm_num [rasterize_pixel, leftCorrection, rightCorrection, Trapezoid.get_area,
      intersect, Line.ofPoints, Line.ofSlopePoint, Line.ofX]
  · unfold columnArea
    norm_num
    have hEq : Set.EqOn
        (fun y : ℝ => max 0 (min (lineY 0 1 1 2 y) (4 : ℝ) - max (lineY 0 1 0 0 y) (3 : ℝ)))
        (fun _ : ℝ => (0 : ℝ)) (Set.uIcc (0 : ℝ) 1) := by
      intro y hy
      rw [Set.uIcc_of_le zero_le_one] at hy
      have hR : lineY 0 1 1 2 y = 1 + y := by
        simp only [lineY]; norm_num
      have hL : lineY 0 1 0 0 y = 0 := by
        simp only [lineY]; norm_num
      show max 0 (min (lineY 0 1 1 2 y) (4 : ℝ) - max (lineY 0 1 0 0 y) (3 : ℝ)) = 0
      rw [hR, hL]
      have h1 : min (1 + y) (4 : ℝ) = 1 + y := min_eq_left (by linarith [hy.2])
      have h2 : max (0 : ℝ) (3 : ℝ) = 3 := max_eq_right (by norm_num)
      rw [h1, h2]
      exact max_eq_left (by linarith [hy.2])
    rw [intervalIntegral.integral_congr hEq]
    simp

/-! ## C2: no two active lines cross strictly inside an emitted strip -/

theorem intersect_comm (l0 l1 : Line) : intersect l0 l1 = intersect l1 l0 := by
  unfold intersect
  rw [show l0.x0 - l1.x0 = -(l1.x0 - l0.x0) from by ring,
    show l1.m - l0.m = -(l0.m - l1.m) from by ring, neg_div_neg_eq]

/-- At the y returned by `intersect`, the two lines (of distinct slopes)
indeed have the same x. -/
theorem get_x_intersect (l0 l1 : Line) (hm : l0.m ≠ l1.m) :
    l0.get_x (intersect l0 l1) = l1.get_x (intersect l0 l1) := by
  have hs : l0.m - l1.m ≠ 0 := sub_ne_zero.mpr hm
  simp only [Line.get_x, intersect]
  field_simp
  ring

/-- Lines of distinct slopes meet only at the y returned by `intersect`. -/
theorem meet_eq_intersect (l0 l1 : Line) (t : ℚ) (hm : l0.m ≠ l1.m)
    (h : l0.get_x t = l1.get_x t) : t = intersect l0 l1 := by
  have hs : l0.m - l1.m ≠ 0 := sub_ne_zero.mpr hm
  simp only [Line.get_x] at h
  simp only [intersect]
  field_simp
  linarith

/-- The clamping scan only ever lowers `next_y`. -/
theorem clampScan_le (y : ℚ) :
    ∀ (lines : List Line) (acc : ℚ), clampScan y acc lines ≤ acc := by
  intro lines
  induction lines with
  | nil => intro acc; simp [clampScan]
  | cons l0 rest ih =>
    intro acc
    cases rest with
    | nil => simp [clampScan]
    | cons l1 rest2 =>
      show clampScan y
        (if l0.m ≠ l1.m ∧ y < intersect l0 l1 ∧ intersect l0 l1 < acc then
          intersect l0 l1 else acc) (l1 :: rest2) ≤ acc
      refine le_trans (ih _) ?_
      split_ifs with h
      · exact h.2.2.le
      · exact le_refl acc

/-- After the scan, no *adjacent* pair of distinct slopes crosses strictly
between the current y and the clamped `next_y`. -/
theorem clampScan_adjacent (y : ℚ) :
    ∀ (lines : List Line) (acc : ℚ) (k : ℕ) (hk1 : k < lines.length)
      (hk2 : k + 1 < lines.length),
      (lines.get ⟨k, hk1⟩).m ≠ (lines.get ⟨k + 1, hk2⟩).m →
      y < intersect (lines.get ⟨k, hk1⟩) (lines.get ⟨k + 1, hk2⟩) →
      ¬ intersect (lines.get ⟨k, hk1⟩) (lines.get ⟨k + 1, hk2⟩) <
        clampScan y acc lines := by
  intro lines
  induction lines with
  | nil =>
    intro acc k hk1 hk2
    simp at hk1
  | cons l0 rest ih =>
    intro acc k hk1 hk2 hm hy
    cases rest with
    | nil =>
      simp at hk2
    | cons l1 rest2 =>
      cases k with
      | zero =>
        intro hlt
        simp only [List.get] at hm hy hlt
        by_cases hcond : l0.m ≠ l1.m ∧ y < intersect l0 l1 ∧ intersect l0 l1 < acc
        · have hcs : clampScan y acc (l0 :: l1 :: rest2) =
              clampScan y (intersect l0 l1) (l1 :: rest2) := by
            show clampScan y
              (if l0.m ≠ l1.m ∧ y < intersect l0 l1 ∧ intersect l0 l1 < acc then
                intersect l0 l1 else acc) (l1 :: rest2) = _
            rw [if_pos hcond]
          rw [hcs] at hlt
          exact absurd (lt_of_lt_of_le hlt (clampScan_le y _ _)) (lt_irrefl _)
        · have hcs : clampScan y acc (l0 :: l1 :: rest2) =
              clampScan y acc (l1 :: rest2) := by
            show clampScan y
              (if l0.m ≠ l1.m ∧ y < intersect l0 l1 ∧ intersect l0 l1 < acc then
                intersect l0 l1 else acc) (l1 :: rest2) = _
            rw [if_neg hcond]
          rw [hcs] at hlt
          exact hcond ⟨hm, hy, lt_of_lt_of_le hlt (clampScan_le y _ _)⟩
      | succ k2 =>
        intro hlt
        have hk1r : k2 < (l1 :: rest2).length := by
          simp at hk1
          simpa using hk1
        have hk2r : k2 + 1 < (l1 :: rest2).length := by
          simp at hk2
          simpa using hk2
        have hcs : clampScan y acc (l0 :: l1 :: rest2) = clampScan y
            (if l0.m ≠ l1.m ∧ y < intersect l0 l1 ∧ intersect l0 l1 < acc then
              intersect l0 l1 else acc) (l1 :: rest2) := rfl
        rw [hcs] at hlt
        exact ih _ k2 hk1r hk2r hm hy hlt

/-- Two lines ordered at `y` (by the sort key) whose order is reversed at
`c > y` cross strictly between `y` and `c`. -/
theorem cross_between (y c : ℚ) (l0 l1 : Line) (hsort : sortKey y l0 l1)
    (hyc : y < c) (hc : l1.get_x c < l0.get_x c) :
    l0.m ≠ l1.m ∧ y < intersect l0 l1 ∧ intersect l0 l1 < c ∧
      l0.get_x (intersect l0 l1) = l1.get_x (intersect l0 l1) := by
  have hgc : (l1.m - l0.m) * c + (l1.x0 - l0.x0) < 0 := by
    simp only [Line.get_x] at hc
    linarith
  have hgy : 0 < (l1.m - l0.m) * y + (l1.x0 - l0.x0) := by
    rcases hsort with h | ⟨heq, hle⟩
    · simp only [Line.get_x] at h
      linarith
    · exfalso
      simp only [Line.get_x] at heq
      have hs0 : 0 ≤ l1.m - l0.m := by linarith
      nlinarith
  have hslt : l1.m - l0.m < 0 := by nlinarith
  have hm : l0.m ≠ l1.m := by
    intro h
    rw [h] at hslt
    simp at hslt
  have hmeet := get_x_intersect l0 l1 hm
  have hgr : (l1.m - l0.m) * intersect l0 l1 + (l1.x0 - l0.x0) = 0 := by
    simp only [Line.get_x] at hmeet
    linarith
  refine ⟨hm, ?_, ?_, hmeet⟩
  · nlinarith
  · nlinarith

/-- Key combinatorial lemma: if two lines of a list sorted at `y` meet at
some `c > y`, then some *adjacent* pair of the list (with distinct slopes)
crosses in `(y, c]`.  Strong induction on the index gap. -/
theorem cross_adjacent (y : ℚ) (lines : List Line)
    (hsort : lines.Pairwise (sortKey y)) :
    ∀ d : ℕ, ∀ (i j : Fin lines.length) (c : ℚ), (j : ℕ) - (i : ℕ) ≤ d →
      (i : ℕ) < (j : ℕ) → (lines.get i).m ≠ (lines.get j).m →
      (lines.get i).get_x c = (lines.get j).get_x c → y < c →
      ∃ (k : ℕ) (hk1 : k < lines.length) (hk2 : k + 1 < lines.length),
        (lines.get ⟨k, hk1⟩).m ≠ (lines.get ⟨k + 1, hk2⟩).m ∧
        y < intersect (lines.get ⟨k, hk1⟩) (lines.get ⟨k + 1, hk2⟩) ∧
        intersect (lines.get ⟨k, hk1⟩) (lines.get ⟨k + 1, hk2⟩) ≤ c := by
  have hsort' := List.pairwise_iff_get.mp hsort
  intro d
  induction d with
  | zero =>
    intro i j c hd hij
    omega
  | succ d ih =>
    intro i j c hd hij hm hmeet hyc
    by_cases hadj : (j : ℕ) = (i : ℕ) + 1
    · -- adjacent pair: the meet y is the intersection itself
      have hc : c = intersect (lines.get i) (lines.get j) :=
        meet_eq_intersect _ _ c hm hmeet
      refine ⟨(i : ℕ), i.isLt, ?_, ?_⟩
      · rw [← hadj]; exact j.isLt
      · have hgi : lines.get ⟨(i : ℕ), i.isLt⟩ = lines.get i := by
          congr
        have hgj : lines.get ⟨(i : ℕ) + 1, by rw [← hadj]; exact j.isLt⟩ = lines.get j := by
          congr
          omega
        rw [hgi, hgj]
        exact ⟨hm, hc ▸ hyc, le_of_eq hc.symm⟩
    · -- a strict middle index exists
      have hmid : (i : ℕ) + 1 < (j : ℕ) := by omega
      have hk0lt : (i : ℕ) + 1 < lines.length := lt_trans hmid j.isLt
      set k0 : Fin lines.length := ⟨(i : ℕ) + 1, hk0lt⟩ with hk0
      have hk0v : (k0 : ℕ) = (i : ℕ) + 1 := rfl
      have hik0 : (i : ℕ) < (k0 : ℕ) := by omega
      have hk0j : (k0 : ℕ) < (j : ℕ) := by omega
      have hsik0 : sortKey y (lines.get i) (lines.get k0) :=
        hsort' i k0 (Fin.lt_def.mpr hik0)
      have hsk0j : sortKey y (lines.get k0) (lines.get j) :=
        hsort' k0 j (Fin.lt_def.mpr hk0j)
      rcases lt_trichotomy ((lines.get k0).get_x c) ((lines.get i).get_x c) with hlt | heq | hgt
      · -- the middle line is left of line i at c: lines i, k0 cross in (y, c)
        obtain ⟨hm', hyr, hrc, hmeet'⟩ := cross_between y c _ _ hsik0 hyc hlt
        obtain ⟨k, hk1, hk2, h1, h2, h3⟩ := ih i k0 (intersect (lines.get i) (lines.get k0))
          (by omega) hik0 hm' hmeet' hyr
        exact ⟨k, hk1, hk2, h1, h2, le_trans h3 hrc.le⟩
      · by_cases hmik0 : (lines.get i).m = (lines.get k0).m
        · -- same slope: recurse on (k0, j), which still meets at c
          have hm2 : (lines.get k0).m ≠ (lines.get j).m := by
            rw [← hmik0]; exact hm
          have hmeet2 : (lines.get k0).get_x c = (lines.get j).get_x c := by
            rw [heq, hmeet]
          obtain ⟨k, hk1, hk2, h1, h2, h3⟩ := ih k0 j c (by omega) hk0j hm2 hmeet2 hyc
          exact ⟨k, hk1, hk2, h1, h2, h3⟩
        · -- distinct slopes meeting at c: recurse on (i, k0) with the same c
          have hmeet2 : (lines.get i).get_x c = (lines.get k0).get_x c := heq.symm
          obtain ⟨k, hk1, hk2, h1, h2, h3⟩ := ih i k0 c (by omega) hik0 hmik0 hmeet2 hyc
          exact ⟨k, hk1, hk2, h1, h2, h3⟩
      · -- the middle line is right of line j at c: lines k0, j cross in (y, c)
        have hgt' : (lines.get j).get_x c < (lines.get k0).get_x c := by
          rw [← hmeet]; exact hgt
        obtain ⟨hm', hyr, hrc, hmeet'⟩ := cross_between y c _ _ hsk0j hyc hgt'
        obtain ⟨k, hk1, hk2, h1, h2, h3⟩ := ih k0 j (intersect (lines.get k0) (lines.get j))
          (by omega) hk0j hm' hmeet' hyr
        exact ⟨k, hk1, hk2, h1, h2, le_trans h3 hrc.le⟩

/-- No two lines of an emitted heap-sweep strip (sorted at the strip bottom,
upper bound produced by the clamping scan) with distinct slopes cross
strictly inside the strip. -/
theorem clampScan_no_cross (y eventY : ℚ) (lines : List Line)
    (hsort : lines.Pairwise (sortKey y))
    (i j : Fin lines.length) (hij : i ≠ j)
    (hm : (lines.get i).m ≠ (lines.get j).m) :
    ¬ (y < intersect (lines.get i) (lines.get j) ∧
       intersect (lines.get i) (lines.get j) < clampScan y eventY lines) := by
  rcases hij.lt_or_lt with hlt | hgt
  · rintro ⟨h1, h2⟩
    have hmeet := get_x_intersect (lines.get i) (lines.get j) hm
    obtain ⟨k, hk1, hk2, hkm, hky, hkc⟩ := cross_adjacent y lines hsort
      ((j : ℕ) - (i : ℕ)) i j _ (le_refl _) (Fin.lt_def.mp hlt) hm hmeet h1
    exact clampScan_adjacent y lines eventY k hk1 hk2 hkm hky (lt_of_le_of_lt hkc h2)
  · rintro ⟨h1, h2⟩
    rw [intersect_comm] at h1 h2
    have hmeet := get_x_intersect (lines.get j) (lines.get i) hm.symm
    obtain ⟨k, hk1, hk2, hkm, hky, hkc⟩ := cross_adjacent y lines hsort
      ((i : ℕ) - (j : ℕ)) j i _ (le_refl _) (Fin.lt_def.mp hgt) hm.symm hmeet h1
    exact clampScan_adjacent y lines eventY k hk1 hk2 hkm hky (lt_of_le_of_lt hkc h2)

/-- Normalization keeps the same endpoint pair. -/
theorem normalizeSegment_endpoints (s : Segment) :
    ((normalizeSegment s).y0 = s.y0 ∧ (normalizeSegment s).y1 = s.y1) ∨
      ((normalizeSegment s).y0 = s.y1 ∧ (normalizeSegment s).y1 = s.y0) := by
  unfold normalizeSegment
  split_ifs <;> simp

theorem mem_baseYs (segs : List Segment) (s : Segment) (hs : s ∈ segs) :
    s.y0 ∈ baseYs segs ∧ s.y1 ∈ baseYs segs := by
  unfold baseYs
  constructor <;>
    · rw [List.mem_flatten]
      exact ⟨[s.y0, s.y1], List.mem_map_of_mem _ hs, by simp⟩

theorem pairCross_comm (s0 s1 : Segment) : pairCross s0 s1 = pairCross s1 s0 := by
  simp only [pairCross]
  by_cases h1 : max s0.y0 s1.y0 < min s0.y1 s1.y1 ∧ s0.line.m ≠ s1.line.m
  · have h1s : max s1.y0 s0.y0 < min s1.y1 s0.y1 ∧ s1.line.m ≠ s0.line.m := by
      rw [max_comm s1.y0 s0.y0, min_comm s1.y1 s0.y1]
      exact ⟨h1.1, h1.2.symm⟩
    rw [if_pos h1, if_pos h1s]
    by_cases h2 : max s0.y0 s1.y0 < intersect s0.line s1.line ∧
        intersect s0.line s1.line < min s0.y1 s1.y1
    · have h2s : max s1.y0 s0.y0 < intersect s1.line s0.line ∧
          intersect s1.line s0.line < min s1.y1 s0.y1 := by
        rw [max_comm s1.y0 s0.y0, min_comm s1.y1 s0.y1, intersect_comm s1.line s0.line]
        exact h2
      rw [if_pos h2, if_pos h2s, intersect_comm]
    · have h2s : ¬ (max s1.y0 s0.y0 < intersect s1.line s0.line ∧
          intersect s1.line s0.line < min s1.y1 s0.y1) := by
        rw [max_comm s1.y0 s0.y0, min_comm s1.y1 s0.y1, intersect_comm s1.line s0.line]
        exact h2
      rw [if_neg h2, if_neg h2s]
  · have h1s : ¬ (max s1.y0 s0.y0 < min s1.y1 s0.y1 ∧ s1.line.m ≠ s0.line.m) := by
      rw [max_comm s1.y0 s0.y0, min_comm s1.y1 s0.y1]
      intro h
      exact h1 ⟨h.1, h.2.symm⟩
    rw [if_neg h1, if_neg h1s]

/-- Whatever the inner pair loop produces for a pair of positions ends up in
the collected intersection-y list. -/
theorem crossYsAux_mem :
    ∀ (l : List Segment) (i j : ℕ) (hi : i < l.length) (hj : j < l.length),
      i < j → ∀ c : ℚ, pairCross (l.get ⟨i, hi⟩) (l.get ⟨j, hj⟩) = some c →
      c ∈ crossYsAux l := by
  intro l
  induction l with
  | nil =>
    intro i j hi
    simp at hi
  | cons s rest ih =>
    intro i j hi hj hij c hpc
    cases i with
    | zero =>
      cases j with
      | zero => omega
      | succ j2 =>
        have hj2 : j2 < rest.length := by simpa using hj
        show c ∈ rest.filterMap (pairCross s) ++ crossYsAux rest
        refine List.mem_append_left _ ?_
        rw [List.mem_filterMap]
        exact ⟨rest.get ⟨j2, hj2⟩, List.get_mem rest j2 hj2, hpc⟩
    | succ i2 =>
      cases j with
      | zero => omega
      | succ j2 =>
        have hi2 : i2 < rest.length := by simpa using hi
        have hj2 : j2 < rest.length := by simpa using hj
        show c ∈ rest.filterMap (pairCross s) ++ crossYsAux rest
        exact List.mem_append_right _ (ih i2 j2 hi2 hj2 (by omega) c hpc)

/-- No two segments active in a strip of the precomputed-ys sweep (an
interval between consecutive collected ys) with distinct slopes cross
strictly inside the strip. -/
theorem ys_no_cross (segs : List Segment) (a b : ℚ) (hab : a < b)
    (hconsec : ∀ z ∈ allYs segs, ¬ (a < z ∧ z < b))
    (i j : Fin (segs.map normalizeSegment).length) (hij : i ≠ j)
    (hacti : activeIn a b ((segs.map normalizeSegment).get i))
    (hactj : activeIn a b ((segs.map normalizeSegment).get j))
    (hm : ((segs.map normalizeSegment).get i).line.m ≠
      ((segs.map normalizeSegment).get j).line.m) :
    ¬ (a < intersect ((segs.map normalizeSegment).get i).line
          ((segs.map normalizeSegment).get j).line ∧
        intersect ((segs.map normalizeSegment).get i).line
          ((segs.map normalizeSegment).get j).line < b) := by
  rintro ⟨h1, h2⟩
  have hbound : ∀ k : Fin (segs.map normalizeSegment).length,
      activeIn a b ((segs.map normalizeSegment).get k) →
      ((segs.map normalizeSegment).get k).y0 ≤ a ∧
        b ≤ ((segs.map normalizeSegment).get k).y1 := by
    intro k hact
    have hkv : k.val < segs.length := by simpa using k.isLt
    have hget : (segs.map normalizeSegment).get k =
        normalizeSegment (segs.get ⟨k.val, hkv⟩) := by
      simp [List.get_map]
    have hsmem : segs.get ⟨k.val, hkv⟩ ∈ segs := List.get_mem segs k.val hkv
    have hbase := mem_baseYs segs _ hsmem
    have hmem0 : ((segs.map normalizeSegment).get k).y0 ∈ allYs segs ∧
        ((segs.map normalizeSegment).get k).y1 ∈ allYs segs := by
      rw [hget]
      rcases normalizeSegment_endpoints (segs.get ⟨k.val, hkv⟩) with ⟨e0, e1⟩ | ⟨e0, e1⟩ <;>
        rw [e0, e1] <;>
        exact ⟨List.mem_append_left _ (by tauto), List.mem_append_left _ (by tauto)⟩
    constructor
    · by_contra hgt
      exact hconsec _ hmem0.1 ⟨not_le.mp hgt, hact.2⟩
    · by_contra hgt
      exact hconsec _ hmem0.2 ⟨hact.1, not_le.mp hgt⟩
  obtain ⟨hi0, hi1⟩ := hbound i hacti
  obtain ⟨hj0, hj1⟩ := hbound j hactj
  have hcmem : intersect ((segs.map normalizeSegment).get i).line
      ((segs.map normalizeSegment).get j).line ∈ allYs segs := by
    have hover : ∀ (u v : Fin (segs.map normalizeSegment).length),
        ((segs.map normalizeSegment).get u).y0 ≤ a →
        ((segs.map normalizeSegment).get v).y0 ≤ a →
        b ≤ ((segs.map normalizeSegment).get u).y1 →
        b ≤ ((segs.map normalizeSegment).get v).y1 →
        ((segs.map normalizeSegment).get u).line.m ≠
          ((segs.map normalizeSegment).get v).line.m →
        a < intersect ((segs.map normalizeSegment).get u).line
            ((segs.map normalizeSegment).get v).line →
        intersect ((segs.map normalizeSegment).get u).line
            ((segs.map normalizeSegment).get v).line < b →
        pairCross ((segs.map normalizeSegment).get u)
            ((segs.map normalizeSegment).get v) =
          some (intersect ((segs.map normalizeSegment).get u).line
            ((segs.map normalizeSegment).get v).line) := by
      intro u v hu0 hv0 hu1 hv1 hmuv hc1 hc2
      have hcond1 : max ((segs.map normalizeSegment).get u).y0
          ((segs.map normalizeSegment).get v).y0 <
          min ((segs.map normalizeSegment).get u).y1
            ((segs.map normalizeSegment).get v).y1 :=
        lt_of_le_of_lt (max_le hu0 hv0) (lt_of_lt_of_le hab (le_min hu1 hv1))
      have hcond2 : max ((segs.map normalizeSegment).get u).y0
          ((segs.map normalizeSegment).get v).y0 <
          intersect ((segs.map normalizeSegment).get u).line
            ((segs.map normalizeSegment).get v).line :=
        lt_of_le_of_lt (max_le hu0 hv0) hc1
      have hcond3 : intersect ((segs.map normalizeSegment).get u).line
          ((segs.map normalizeSegment).get v).line <
          min ((segs.map normalizeSegment).get u).y1
            ((segs.map normalizeSegment).get v).y1 :=
        lt_of_lt_of_le hc2 (le_min hu1 hv1)
      simp only [pairCross]
      rw [if_pos ⟨hcond1, hmuv⟩, if_pos ⟨hcond2, hcond3⟩]
    rcases hij.lt_or_lt with hlt | hgt
    · have hpc := hover i j hi0 hj0 hi1 hj1 hm h1 h2
      exact List.mem_append_right _
        (crossYsAux_mem (segs.map normalizeSegment) i.val j.val i.isLt j.isLt
          (Fin.lt_def.mp hlt) _ hpc)
    · have h1s : a < intersect ((segs.map normalizeSegment).get j).line
          ((segs.map normalizeSegment).get i).line := by
        rw [intersect_comm]; exact h1
      have h2s : intersect ((segs.map normalizeSegment).get j).line
          ((segs.map normalizeSegment).get i).line < b := by
        rw [intersect_comm]; exact h2
      have hpc := hover j i hj0 hi0 hj1 hi1 hm.symm h1s h2s
      have hmm := List.mem_append_right (baseYs segs)
        (crossYsAux_mem (segs.map normalizeSegment) j.val i.val j.isLt i.isLt
          (Fin.lt_def.mp hgt) _ hpc)
      rw [intersect_comm]
      exact hmm
  exact hconsec _ hcmem ⟨h1, h2⟩

/-- **C2.**  For every strip produced by the sweep — in the event-heap
variant, a strip `[y, next_y]` whose lines were just sorted by `(x(y), m)`
and whose `next_y` was clamped by the adjacent-pairs intersection scan; in
the precomputed-ys variant, a strip between two consecutive collected ys
with the segments active in it — no two lines of the strip with unequal
slopes intersect at a y strictly inside the strip. -/
theorem C2_no_crossing_inside_strip :
    (∀ (y eventY : ℚ) (lines : List Line), lines.Pairwise (sortKey y) →
      ∀ i j : Fin lines.length, i ≠ j →
        (lines.get i).m ≠ (lines.get j).m →
        ¬ (y < intersect (lines.get i) (lines.get j) ∧
           intersect (lines.get i) (lines.get j) < clampScan y eventY lines)) ∧
    (∀ (segs : List Segment) (a b : ℚ), a ∈ allYs segs → b ∈ allYs segs → a < b →
      (∀ z ∈ allYs segs, ¬ (a < z ∧ z < b)) →
      ∀ i j : Fin (segs.map normalizeSegment).length, i ≠ j →
        activeIn a b ((segs.map normalizeSegment).get i) →
        activeIn a b ((segs.map normalizeSegment).get j) →
        ((segs.map normalizeSegment).get i).line.m ≠
          ((segs.map normalizeSegment).get j).line.m →
        ¬ (a < intersect ((segs.map normalizeSegment).get i).line
              ((segs.map normalizeSegment).get j).line ∧
            intersect ((segs.map normalizeSegment).get i).line
              ((segs.map normalizeSegment).get j).line < b)) :=
  ⟨fun y eventY lines hsort i j hij hm =>
      clampScan_no_cross y eventY lines hsort i j hij hm,
    fun segs a b _ _ hab hconsec i j hij hacti hactj hm =>
      ys_no_cross segs a b hab hconsec i j hij hacti hactj hm⟩

/-- Witness for C2: a vertical line and a slanted line, in a heap-sweep strip
from `y = 0` to event y `5`, and two segments spanning `[0, 2]` in a
precomputed-ys strip `(0, 2)`. -/
theorem C2_witness :
    ¬ ((0 : ℚ) < intersect (Line.mk 0 0) (Line.mk 1 1) ∧
        intersect (Line.mk 0 0) (Line.mk 1 1) <
          clampScan 0 5 [Line.mk 0 0, Line.mk 1 1]) ∧
    ¬ ((0 : ℚ) < intersect (([⟨0, 2, Line.mk 0 0⟩, ⟨0, 2, Line.mk 1 0⟩].map
            normalizeSegment).get ⟨0, by decide⟩).line
          (([⟨0, 2, Line.mk 0 0⟩, ⟨0, 2, Line.mk 1 0⟩].map
            normalizeSegment).get ⟨1, by decide⟩).line ∧
        intersect (([⟨0, 2, Line.mk 0 0⟩, ⟨0, 2, Line.mk 1 0⟩].map
            normalizeSegment).get ⟨0, by decide⟩).line
          (([⟨0, 2, Line.mk 0 0⟩, ⟨0, 2, Line.mk 1 0⟩].map
            normalizeSegment).get ⟨1, by decide⟩).line < 2) :=
  ⟨C2_no_crossing_inside_strip.1 0 5 [Line.mk 0 0, Line.mk 1 1]
      (by simp [sortKey, Line.get_x]) ⟨0, by decide⟩ ⟨1, by decide⟩
      (by decide) (by decide),
    C2_no_crossing_inside_strip.2 [⟨0, 2, Line.mk 0 0⟩, ⟨0, 2, Line.mk 1 0⟩] 0 2
      (by simp [allYs, baseYs]) (by simp [allYs, baseYs]) (by decide)
      (by simp [allYs, baseYs, crossYsAux, pairCross, normalizeSegment, intersect])
      ⟨0, by decide⟩ ⟨1, by decide⟩ (by decide)
      (by simp [activeIn, normalizeSegment]) (by simp [activeIn, normalizeSegment])
      (by decide)⟩

/-! ## C3: the radial-gradient parameter solver -/

/-- **C3.**  `RadialGradient::evaluate` computes `A`, `B`, `C` as in the
spec and returns: transparent black when `A = 0 ∧ B = 0`; the stop color at
`t = −C/(2B)` when `A = 0 ∧ B ≠ 0`; transparent black when `A ≠ 0` and the
discriminant `D = B² − A·C` is negative; otherwise the stop color at
`t = (−B + √D)/A` when `fr > r` and at `t = (−B − √D)/A` otherwise —
i.e. the code refines the spec's §4.3 case analysis (`radialSpec`), for any
square-root function. -/
theorem C3_radial_solver (sqrtF : ℚ → ℚ) (g : RadialGradient) (p : Point) :
    RadialGradient.evaluate sqrtF g p = radialSpec sqrtF g p := by
  simp only [RadialGradient.evaluate, radialSpec, radialSpecParam]
  split_ifs <;> rfl

/-! ## C7: the event queue's comparator has no secondary key -/

/-- **C7 (amended).**  The heap comparator `Event::operator>` compares the y
coordinates only: `e0 > e1 ↔ e0.y > e1.y`, and two events with equal y are
incomparable in both directions — so among coincident-y events the pop order
is decided by the heap's internal layout, not by any (event-type,
edge-index) key.  (The claimed deterministic secondary key does not exist in
the code; see the counterexample.) -/
theorem C7_event_comparator_y_only :
    (∀ e0 e1 : Event, Event.ordGt e0 e1 ↔ e0.y > e1.y) ∧
    (∀ e0 e1 : Event, e0.y = e1.y →
      ¬ Event.ordGt e0 e1 ∧ ¬ Event.ordGt e1 e0) :=
  ⟨fun _ _ => Iff.rfl,
    fun e0 e1 h => ⟨by simp [Event.ordGt, h], by simp [Event.ordGt, h]⟩⟩

/-- Witness for C7: a `LINE_START` and a `LINE_END` event at the same y. -/
theorem C7_witness :
    ¬ Event.ordGt ⟨EventType.LINE_START, 0, 0⟩ ⟨EventType.LINE_END, 0, 1⟩ ∧
      ¬ Event.ordGt ⟨EventType.LINE_END, 0, 1⟩ ⟨EventType.LINE_START, 0, 0⟩ :=
  C7_event_comparator_y_only.2 ⟨EventType.LINE_START, 0, 0⟩
    ⟨EventType.LINE_END, 0, 1⟩ rfl

/-- Counterexample for C7 as frozen: two coincident-y events that the claimed
(event-type, edge-index) secondary key orders strictly, yet the code's
comparator — the only ordering the priority queue ever consults — does not
distinguish them in either direction. -/
theorem C7_counterexample :
    Event.secondaryLt ⟨EventType.LINE_START, 0, 0⟩ ⟨EventType.LINE_END, 0, 1⟩ ∧
      ¬ Event.ordGt ⟨EventType.LINE_START, 0, 0⟩ ⟨EventType.LINE_END, 0, 1⟩ ∧
      ¬ Event.ordGt ⟨EventType.LINE_END, 0, 1⟩ ⟨EventType.LINE_START, 0, 0⟩ :=
  ⟨Or.inl ⟨rfl, rfl⟩, by simp [Event.ordGt], by simp [Event.ordGt]⟩

/-! ## C8: degenerate scenes (width or height 0) -/

/-- **C8** is a code bug for `width = 0`: `Pixmap::get_height` computes
`pixels.size() / width`, an integer division by zero (undefined behaviour),
and it is reached unconditionally through `write_png`; so the render does
not "complete without error" as claimed.  For `height = 0` (with positive
width) the claim's behaviour does hold: the pixmap is empty, `get_height`
is 0, and the emitted image contains no row data. -/
theorem C8_degenerate_scene :
    (Pixmap.ofSize 0 1).getHeightQ = none ∧
      writePng (Pixmap.ofSize 0 1) = none ∧
      (Pixmap.ofSize 5 0).getHeightQ = some 0 ∧
      allRowsData (Pixmap.ofSize 5 0) 0 = [] ∧
      (writePng (Pixmap.ofSize 5 0)).isSome = true := by
  refine ⟨rfl, rfl, ?_, rfl, ?_⟩ <;> rfl

/-! ## C10: `add_pixel` is a pointwise accumulation -/

/-- An in-range pixel coordinate addresses a valid cell of the backing
vector. -/
theorem pixel_index_lt (w len x y : ℕ) (hx : x < w) (hy : y < len / w) :
    y * w + x < len := by
  have h1 : (y + 1) * w ≤ (len / w) * w :=
    Nat.mul_le_mul_right w (Nat.succ_le_of_lt hy)
  have h2 : (len / w) * w ≤ len := Nat.div_mul_le_self len w
  have h3 : y * w + x < y * w + w := Nat.add_lt_add_left hx _
  have h4 : y * w + w = (y + 1) * w := by ring
  omega

/-- Distinct in-range coordinates address distinct cells. -/
theorem pixel_index_ne (w x y x2 y2 : ℕ) (hx : x < w) (hx2 : x2 < w)
    (hne : ¬ (x2 = x ∧ y2 = y)) : y2 * w + x2 ≠ y * w + x := by
  intro heq
  have hw : 0 < w := Nat.pos_of_ne_zero fun h => by omega
  have hdiv : ∀ a b : ℕ, a < w → (b * w + a) / w = b := by
    intro a b ha
    rw [Nat.add_comm, Nat.add_mul_div_right a b hw, Nat.div_eq_of_lt ha]
    omega
  have hmod : ∀ a b : ℕ, a < w → (b * w + a) % w = a := by
    intro a b ha
    rw [Nat.add_comm, Nat.add_mul_mod_self_right, Nat.mod_eq_of_lt ha]
  have hy : y2 = y := by
    have := hdiv x2 y2 hx2
    rw [heq, hdiv x y hx] at this
    omega
  have hxx : x2 = x := by
    have := hmod x2 y2 hx2
    rw [heq, hmod x y hx] at this
    omega
  exact hne ⟨hxx, hy⟩

/-- **C10.**  For every pixmap and in-range coordinate `(x, y)` and color
`c`, `add_pixel(x, y, c)` replaces pixel `(x, y)` by its previous value plus
`c` componentwise (no clamping), and leaves every other in-range pixel, the
width, and the height unchanged. -/
theorem C10_add_pixel_frame (pm : Pixmap) (x y : ℕ) (c : Color)
    (hx : x < pm.width) (hy : y < pm.pixels.length / pm.width) :
    (pm.add_pixel x y c).get_pixel x y = pm.get_pixel x y + c ∧
      (∀ x2 y2 : ℕ, x2 < pm.width → y2 < pm.pixels.length / pm.width →
        ¬ (x2 = x ∧ y2 = y) →
        (pm.add_pixel x y c).get_pixel x2 y2 = pm.get_pixel x2 y2) ∧
      (pm.add_pixel x y c).get_width = pm.get_width ∧
      (pm.add_pixel x y c).getHeightQ = pm.getHeightQ := by
  have hidx : y * pm.width + x < pm.pixels.length :=
    pixel_index_lt pm.width pm.pixels.length x y hx hy
  refine ⟨?_, ?_, rfl, ?_⟩
  · simp only [Pixmap.add_pixel, Pixmap.get_pixel, List.getD_eq_getElem?_getD,
      List.getElem?_set_self hidx, Option.getD_some]
  · intro x2 y2 hx2 hy2 hne
    have hidx2 : y2 * pm.width + x2 ≠ y * pm.width + x :=
      pixel_index_ne pm.width x y x2 y2 hx hx2 hne
    simp only [Pixmap.add_pixel, Pixmap.get_pixel, List.getD_eq_getElem?_getD,
      List.getElem?_set_ne (Ne.symm hidx2)]
  · simp only [Pixmap.add_pixel, Pixmap.getHeightQ, List.length_set]

/-- Witness for C10: a 1×1 pixmap accumulating a color. -/
theorem C10_witness :
    ((Pixmap.mk 1 [⟨1, 0, 0, 1⟩]).add_pixel 0 0 ⟨0, 1, 0, 1⟩).get_pixel 0 0 =
        (Pixmap.mk 1 [⟨1, 0, 0, 1⟩]).get_pixel 0 0 + ⟨0, 1, 0, 1⟩ ∧
      ((Pixmap.mk 1 [⟨1, 0, 0, 1⟩]).add_pixel 0 0 ⟨0, 1, 0, 1⟩).get_width =
        (Pixmap.mk 1 [⟨1, 0, 0, 1⟩]).get_width :=
  ⟨(C10_add_pixel_frame (Pixmap.mk 1 [⟨1, 0, 0, 1⟩]) 0 0 ⟨0, 1, 0, 1⟩
      (by decide) (by decide)).1,
    (C10_add_pixel_frame (Pixmap.mk 1 [⟨1, 0, 0, 1⟩]) 0 0 ⟨0, 1, 0, 1⟩
      (by decide) (by decide)).2.2.1⟩

/-! ## C4: gradient stop lookup -/

theorem findIdx_eq_length_of_false {α : Type} (p : α → Bool) :
    ∀ l : List α, (∀ a ∈ l, p a = false) → l.findIdx p = l.length := by
  intro l
  induction l with
  | nil => intro; rfl
  | cons a l ih =>
    intro h
    rw [List.findIdx_cons, h a (List.mem_cons_self a l), cond_false,
      ih fun b hb => h b (List.mem_cons_of_mem a hb)]
    rfl

theorem findIdx_eq_of_first_true {α : Type} (p : α → Bool) :
    ∀ (l : List α) (k : ℕ) (hk : k < l.length),
      (∀ m (hm : m < k), p (l.get ⟨m, lt_trans hm hk⟩) = false) →
      p (l.get ⟨k, hk⟩) = true → l.findIdx p = k := by
  intro l
  induction l with
  | nil =>
    intro k hk
    simp at hk
  | cons a l ih =>
    intro k hk hfalse htrue
    cases k with
    | zero =>
      rw [List.findIdx_cons]
      simp only [List.get] at htrue
      rw [htrue, cond_true]
    | succ k2 =>
      have ha : p a = false := hfalse 0 (Nat.succ_pos k2)
      rw [List.findIdx_cons, ha, cond_false]
      have hk2 : k2 < l.length := by simpa using hk
      have hih := ih k2 hk2
        (fun m hm => hfalse (m + 1) (Nat.succ_lt_succ hm)) htrue
      omega

theorem getLastI_eq_get {α : Type} [Inhabited α] (l : List α) (h : l ≠ [])
    (hl : l.length - 1 < l.length) : l.getLastI = l.get ⟨l.length - 1, hl⟩ := by
  rw [List.getLastI_eq_getLast?, List.getLast?_eq_getElem?]
  simp [List.getElem?_eq_getElem hl]

/-- Empty gradient: transparent black. -/
theorem gradientEvaluate_nil (pos : ℚ) :
    gradientEvaluate [] pos = Color.transparent := rfl

/-- Query at or below the first stop position: first stop's color. -/
theorem gradientEvaluate_le_first (stops : List Stop) (pos : ℚ)
    (hne : stops ≠ []) (h : pos ≤ (stops.headI).pos) :
    gradientEvaluate stops pos = (stops.headI).color := by
  cases stops with
  | nil => exact absurd rfl hne
  | cons s rest =>
    simp only [List.headI] at h ⊢
    simp [gradientEvaluate, List.findIdx_cons, h]

/-- Query strictly above the last stop position (stops sorted nondecreasing):
last stop's color. -/
theorem gradientEvaluate_gt_last (stops : List Stop) (pos : ℚ)
    (hs : stops.Pairwise fun a b => a.pos ≤ b.pos) (hne : stops ≠ [])
    (h : (stops.getLastI).pos < pos) :
    gradientEvaluate stops pos = (stops.getLastI).color := by
  have hlen : 0 < stops.length := List.length_pos.mpr hne
  have hlast : stops.getLastI = stops.get ⟨stops.length - 1, by omega⟩ :=
    getLastI_eq_get stops hne (by omega)
  have hpw := List.pairwise_iff_get.mp hs
  have hmem_le : ∀ a ∈ stops, a.pos ≤ (stops.getLastI).pos := by
    intro a ha
    obtain ⟨i, hget⟩ := List.mem_iff_get.mp ha
    rcases Nat.lt_or_ge (i : ℕ) (stops.length - 1) with hi | hi
    · have := hpw i ⟨stops.length - 1, by omega⟩ (Fin.lt_def.mpr hi)
      rw [hget] at this
      rw [hlast]
      exact this
    · have hieq : (i : ℕ) = stops.length - 1 := by
        have := i.isLt
        omega
      rw [hlast, ← hget]
      have : i = (⟨stops.length - 1, by omega⟩ : Fin stops.length) := by
        apply Fin.ext
        exact hieq
      rw [this]
  have hall : ∀ a ∈ stops, (fun st => decide (pos ≤ st.pos)) a = false := by
    intro a ha
    simp only [decide_eq_false_iff_not, not_le]
    exact lt_of_le_of_lt (hmem_le a ha) h
  have hidx := findIdx_eq_length_of_false (fun st => decide (pos ≤ st.pos)) stops hall
  cases stops with
  | nil => exact absurd rfl hne
  | cons s rest =>
    simp only [gradientEvaluate]
    rw [hidx]
    have hlennz : (s :: rest).length ≠ 0 := by simp
    rw [if_neg hlennz, if_pos rfl]

/-- Query strictly between two adjacent stop positions (stops sorted
nondecreasing): componentwise linear interpolation. -/
theorem gradientEvaluate_between (stops : List Stop) (pos : ℚ)
    (hs : stops.Pairwise fun a b => a.pos ≤ b.pos)
    (k : ℕ) (hk1 : k < stops.length) (hk2 : k + 1 < stops.length)
    (h1 : (stops.get ⟨k, hk1⟩).pos < pos) (h2 : pos < (stops.get ⟨k + 1, hk2⟩).pos) :
    gradientEvaluate stops pos =
      (stops.get ⟨k, hk1⟩).color *
        (1 - (pos - (stops.get ⟨k, hk1⟩).pos) /
          ((stops.get ⟨k + 1, hk2⟩).pos - (stops.get ⟨k, hk1⟩).pos)) +
      (stops.get ⟨k + 1, hk2⟩).color *
        ((pos - (stops.get ⟨k, hk1⟩).pos) /
          ((stops.get ⟨k + 1, hk2⟩).pos - (stops.get ⟨k, hk1⟩).pos)) := by
  have hpw := List.pairwise_iff_get.mp hs
  have hfalse : ∀ m (hm : m < k + 1),
      (fun st => decide (pos ≤ st.pos)) (stops.get ⟨m, lt_trans hm hk2⟩) = false := by
    intro m hm
    simp only [decide_eq_false_iff_not, not_le]
    rcases Nat.lt_or_ge m k with hmk | hmk
    · have hle := hpw ⟨m, lt_trans hm hk2⟩ ⟨k, hk1⟩ (Fin.lt_def.mpr hmk)
      exact lt_of_le_of_lt hle h1
    · have hmeq : m = k := by omega
      have : (⟨m, lt_trans hm hk2⟩ : Fin stops.length) = ⟨k, hk1⟩ := Fin.ext hmeq
      rw [this]
      exact h1
  have htrue : (fun st => decide (pos ≤ st.pos)) (stops.get ⟨k + 1, hk2⟩) = true :=
    decide_eq_true h2.le
  have hidx := findIdx_eq_of_first_true (fun st => decide (pos ≤ st.pos)) stops (k + 1) hk2 hfalse htrue
  cases stops with
  | nil => simp at hk1
  | cons s rest =>
    simp only [gradientEvaluate]
    rw [hidx, if_neg (by omega : ¬ k + 1 = 0),
      if_neg (by omega : ¬ k + 1 = (s :: rest).length)]
    have hg1 : (s :: rest).getD (k + 1 - 1) default = (s :: rest).get ⟨k, hk1⟩ := by
      rw [List.getD_eq_getElem?_getD, show k + 1 - 1 = k from rfl,
        List.getElem?_eq_getElem hk1]
      simp
    have hg2 : (s :: rest).getD (k + 1) default = (s :: rest).get ⟨k + 1, hk2⟩ := by
      rw [List.getD_eq_getElem?_getD, List.getElem?_eq_getElem hk2]
      simp
    rw [hg1, hg2]

/-- Query at or above the last stop position, stops *strictly* ascending:
last stop's color (this is the amended endpoint clause; with duplicated
last positions the code returns the first stop attaining the last position
instead — see the counterexample). -/
theorem gradientEvaluate_ge_last_strict (stops : List Stop) (pos : ℚ)
    (hs : stops.Pairwise fun a b => a.pos < b.pos) (hne : stops ≠ [])
    (h : (stops.getLastI).pos ≤ pos) :
    gradientEvaluate stops pos = (stops.getLastI).color := by
  rcases lt_or_eq_of_le h with hlt | heq
  · exact gradientEvaluate_gt_last stops pos (hs.imp le_of_lt) hne hlt
  · have hlen : 0 < stops.length := List.length_pos.mpr hne
    have hlast := getLastI_eq_get stops hne (by omega)
    by_cases hone : stops.length = 1
    · obtain ⟨a, ha⟩ := List.length_eq_one.mp hone
      subst ha
      simp only [List.getLastI] at heq ⊢
      exact gradientEvaluate_le_first [a] pos (by simp) (le_of_eq heq.symm)
    · have hlen2 : 2 ≤ stops.length := by omega
      have hpw := List.pairwise_iff_get.mp hs
      have hkk : stops.length - 1 < stops.length := by omega
      have hfalse : ∀ m (hm : m < stops.length - 1),
          (fun st => decide (pos ≤ st.pos)) (stops.get ⟨m, lt_trans hm hkk⟩) = false := by
        intro m hm
        simp only [decide_eq_false_iff_not, not_le]
        have hlt := hpw ⟨m, lt_trans hm hkk⟩ ⟨stops.length - 1, hkk⟩ (Fin.lt_def.mpr hm)
        rw [← hlast] at hlt
        rw [← heq]
        exact hlt
      have htrue : (fun st => decide (pos ≤ st.pos))
          (stops.get ⟨stops.length - 1, hkk⟩) = true := by
        refine decide_eq_true ?_
        rw [← hlast, ← heq]
      have hidx := findIdx_eq_of_first_true (fun st => decide (pos ≤ st.pos)) stops (stops.length - 1) hkk hfalse htrue
      cases stops with
      | nil => exact absurd rfl hne
      | cons s rest =>
        simp only [gradientEvaluate]
        have hcond1 : ¬ ((s :: rest).length - 1 = 0) := by
          simp only [List.length_cons] at hone ⊢
          omega
        have hcond2 : ¬ ((s :: rest).length - 1 = (s :: rest).length) := by
          simp only [List.length_cons]
          omega
        rw [hidx, if_neg hcond1, if_neg hcond2]
        have hk0 : (s :: rest).length - 1 - 1 < (s :: rest).length := by
          simp only [List.length_cons]
          omega
        have hg1 : (s :: rest).getD ((s :: rest).length - 1 - 1) default =
            (s :: rest).get ⟨(s :: rest).length - 1 - 1, hk0⟩ := by
          rw [List.getD_eq_getElem?_getD, List.getElem?_eq_getElem hk0]
          simp
        have hg2 : (s :: rest).getD ((s :: rest).length - 1) default =
            (s :: rest).get ⟨(s :: rest).length - 1, hkk⟩ := by
          rw [List.getD_eq_getElem?_getD, List.getElem?_eq_getElem hkk]
          simp
        rw [hg1, hg2]
        have hp01 : ((s :: rest).get ⟨(s :: rest).length - 1 - 1, hk0⟩).pos <
            ((s :: rest).get ⟨(s :: rest).length - 1, hkk⟩).pos := by
          refine hpw _ _ (Fin.lt_def.mpr ?_)
          simp only [List.length_cons] at hone ⊢
          omega
        have hfac : (pos - ((s :: rest).get ⟨(s :: rest).length - 1 - 1, hk0⟩).pos) /
            (((s :: rest).get ⟨(s :: rest).length - 1, hkk⟩).pos -
              ((s :: rest).get ⟨(s :: rest).length - 1 - 1, hk0⟩).pos) = 1 := by
          rw [← hlast, ← heq, hlast]
          exact div_self (ne_of_gt (sub_pos.mpr hp01))
        rw [hfac, hlast]
        rw [show (1 : ℚ) - 1 = 0 from by ring, color_smul_zero, color_smul_one,
          transparent_add]

/-- **C4 (amended).**  For gradients with stops sorted ascending by `pos`:
an empty stop list evaluates to transparent black; `t ≤ first.pos` gives
`first.color`; `t` strictly above `last.pos` gives `last.color`; `t`
strictly between two adjacent stops gives the componentwise linear
interpolation with factor `(t − lower.pos)/(upper.pos − lower.pos)`; and
when the stop positions are *strictly* ascending, every `t ≥ last.pos`
gives `last.color`.  (At `t = last.pos` with a duplicated last position the
code returns the first stop attaining that position, not the last stop —
see the counterexample; that is the only part of the frozen claim that
fails.) -/
theorem C4_gradient_stop_lookup :
    (∀ pos : ℚ, gradientEvaluate [] pos = Color.transparent) ∧
    (∀ (stops : List Stop) (pos : ℚ), stops ≠ [] → pos ≤ (stops.headI).pos →
      gradientEvaluate stops pos = (stops.headI).color) ∧
    (∀ (stops : List Stop) (pos : ℚ), (stops.Pairwise fun a b => a.pos ≤ b.pos) →
      stops ≠ [] → (stops.getLastI).pos < pos →
      gradientEvaluate stops pos = (stops.getLastI).color) ∧
    (∀ (stops : List Stop) (pos : ℚ), (stops.Pairwise fun a b => a.pos ≤ b.pos) →
      ∀ (k : ℕ) (hk1 : k < stops.length) (hk2 : k + 1 < stops.length),
      (stops.get ⟨k, hk1⟩).pos < pos → pos < (stops.get ⟨k + 1, hk2⟩).pos →
      gradientEvaluate stops pos =
        (stops.get ⟨k, hk1⟩).color *
          (1 - (pos - (stops.get ⟨k, hk1⟩).pos) /
            ((stops.get ⟨k + 1, hk2⟩).pos - (stops.get ⟨k, hk1⟩).pos)) +
        (stops.get ⟨k + 1, hk2⟩).color *
          ((pos - (stops.get ⟨k, hk1⟩).pos) /
            ((stops.get ⟨k + 1, hk2⟩).pos - (stops.get ⟨k, hk1⟩).pos))) ∧
    (∀ (stops : List Stop) (pos : ℚ), (stops.Pairwise fun a b => a.pos < b.pos) →
      stops ≠ [] → (stops.getLastI).pos ≤ pos →
      gradientEvaluate stops pos = (stops.getLastI).color) :=
  ⟨gradientEvaluate_nil,
    gradientEvaluate_le_first,
    gradientEvaluate_gt_last,
    fun stops pos hs k hk1 hk2 h1 h2 =>
      gradientEvaluate_between stops pos hs k hk1 hk2 h1 h2,
    gradientEvaluate_ge_last_strict⟩

/-- **C4 witness.**  All five clauses instantiated on the two-stop gradient
red at 0, green at 2: empty list is transparent; t = −1 gives red; t = 3
gives green; t = 1 interpolates half-and-half; t = 2 (exactly the last
position, strictly ascending stops) gives green. -/
theorem C4_witness :
    gradientEvaluate [] 5 = Color.transparent ∧
    gradientEvaluate [⟨⟨1, 0, 0, 1⟩, 0⟩, ⟨⟨0, 1, 0, 1⟩, 2⟩] (-1) = ⟨1, 0, 0, 1⟩ ∧
    gradientEvaluate [⟨⟨1, 0, 0, 1⟩, 0⟩, ⟨⟨0, 1, 0, 1⟩, 2⟩] 3 = ⟨0, 1, 0, 1⟩ ∧
    gradientEvaluate [⟨⟨1, 0, 0, 1⟩, 0⟩, ⟨⟨0, 1, 0, 1⟩, 2⟩] 1 =
      (⟨1, 0, 0, 1⟩ : Color) * ((1 : ℚ) - (1 - 0) / (2 - 0)) +
      (⟨0, 1, 0, 1⟩ : Color) * (((1 : ℚ) - 0) / (2 - 0)) ∧
    gradientEvaluate [⟨⟨1, 0, 0, 1⟩, 0⟩, ⟨⟨0, 1, 0, 1⟩, 2⟩] 2 = ⟨0, 1, 0, 1⟩ := by
  obtain ⟨h1, h2, h3, h4, h5⟩ := C4_gradient_stop_lookup
  refine ⟨h1 5, ?_, ?_, ?_, ?_⟩
  · exact h2 [⟨⟨1, 0, 0, 1⟩, 0⟩, ⟨⟨0, 1, 0, 1⟩, 2⟩] (-1) (by decide) (by decide)
  · exact h3 [⟨⟨1, 0, 0, 1⟩, 0⟩, ⟨⟨0, 1, 0, 1⟩, 2⟩] 3 (by decide) (by decide) (by decide)
  · exact h4 [⟨⟨1, 0, 0, 1⟩, 0⟩, ⟨⟨0, 1, 0, 1⟩, 2⟩] 1 (by decide) 0 (by decide)
      (by decide) (by decide) (by decide)
  · exact h5 [⟨⟨1, 0, 0, 1⟩, 0⟩, ⟨⟨0, 1, 0, 1⟩, 2⟩] 2 (by decide) (by decide) (by decide)

/-- **C4 counterexample.**  With the duplicated last position — stops
red at 1 and green at 1, sorted ascending in the nondecreasing sense —
evaluating at t = 1 = last.pos hits `i == begin` in `Gradient::evaluate`
and returns the FIRST stop's color red, whereas the claim's endpoint clause
`t ≥ last.pos ⇒ last.color` demands green. -/
theorem C4_counterexample :
    ([(⟨⟨1, 0, 0, 1⟩, 1⟩ : Stop), ⟨⟨0, 1, 0, 1⟩, 1⟩].Pairwise fun a b => a.pos ≤ b.pos) ∧
    (([(⟨⟨1, 0, 0, 1⟩, 1⟩ : Stop), ⟨⟨0, 1, 0, 1⟩, 1⟩].getLastI).pos ≤ 1) ∧
    gradientEvaluate [⟨⟨1, 0, 0, 1⟩, 1⟩, ⟨⟨0, 1, 0, 1⟩, 1⟩] 1 = ⟨1, 0, 0, 1⟩ ∧
    (([(⟨⟨1, 0, 0, 1⟩, 1⟩ : Stop), ⟨⟨0, 1, 0, 1⟩, 1⟩].getLastI).color = ⟨0, 1, 0, 1⟩) ∧
    (⟨1, 0, 0, 1⟩ : Color) ≠ ⟨0, 1, 0, 1⟩ := by
  refine ⟨by decide, by decide, ?_, by decide, by decide⟩
  simp [gradientEvaluate, List.findIdx_cons]

/-! ## C5: no horizontal segment enters the rasterizer -/

theorem mem_appendSegment {segs : List Segment} {p0 p1 : Point} {s : Segment}
    (hs : s ∈ appendSegment segs p0 p1) :
    s ∈ segs ∨ (p0.y ≠ p1.y ∧ s = Segment.ofPoints p0 p1) := by
  unfold appendSegment at hs
  split_ifs at hs with h
  · rcases List.mem_append.mp hs with h1 | h1
    · exact Or.inl h1
    · exact Or.inr ⟨h, List.mem_singleton.mp h1⟩
  · exact Or.inl hs

theorem appendSegment_inv {segs : List Segment} {p0 p1 : Point}
    (h : ∀ s ∈ segs, s.y0 ≠ s.y1) :
    ∀ s ∈ appendSegment segs p0 p1, s.y0 ≠ s.y1 := by
  intro s hs
  rcases mem_appendSegment hs with h1 | ⟨hy, rfl⟩
  · exact h s h1
  · exact hy

theorem appendSegment_ne_iff (segs : List Segment) (p0 p1 : Point) :
    appendSegment segs p0 p1 ≠ segs ↔ p0.y ≠ p1.y := by
  unfold appendSegment
  split_ifs with h
  · refine iff_of_true ?_ h
    intro heq
    have hlen := congrArg List.length heq
    simp at hlen
  · exact iff_of_false (by simp) h

/-- Invariant preservation through a `foldl` whose step is segment-pushing. -/
theorem foldl_segment_inv {α : Type} (step : List Segment → α → List Segment)
    (hstep : ∀ segs a, (∀ s ∈ segs, s.y0 ≠ s.y1) → ∀ s ∈ step segs a, s.y0 ≠ s.y1)
    (l : List α) :
    ∀ segs, (∀ s ∈ segs, s.y0 ≠ s.y1) → ∀ s ∈ l.foldl step segs, s.y0 ≠ s.y1 := by
  induction l with
  | nil => intro segs h; simpa using h
  | cons x xs ih =>
    intro segs h
    exact ih _ (hstep segs x h)

theorem fillSubpath_inv (t : Transformation) (points : List Point)
    {segs : List Segment} (h : ∀ s ∈ segs, s.y0 ≠ s.y1) :
    ∀ s ∈ fillSubpath t points segs, s.y0 ≠ s.y1 := by
  unfold fillSubpath
  refine appendSegment_inv ?_
  exact foldl_segment_inv _ (fun segs pq h => appendSegment_inv h) _ segs h

theorem strokeSubpath_inv (sqrtF : ℚ → ℚ) (t : Transformation) (offset : ℚ)
    (sp : Subpath) {segs : List Segment} (h : ∀ s ∈ segs, s.y0 ≠ s.y1) :
    ∀ s ∈ strokeSubpath sqrtF t offset sp segs, s.y0 ≠ s.y1 := by
  unfold strokeSubpath
  split_ifs with hc
  · exact fillSubpath_inv _ _ (fillSubpath_inv _ _ h)
  · exact fillSubpath_inv _ _ h

theorem fillSegments_inv (p : Path) : ∀ s ∈ p.fillSegments, s.y0 ≠ s.y1 := by
  unfold Path.fillSegments
  exact foldl_segment_inv _ (fun segs sp h => fillSubpath_inv p.t sp.points h) _ []
    (by simp)

theorem strokeSegments_inv (sqrtF : ℚ → ℚ) (p : Path) (w : ℚ) :
    ∀ s ∈ p.strokeSegments sqrtF w, s.y0 ≠ s.y1 := by
  unfold Path.strokeSegments
  exact foldl_segment_inv _
    (fun segs sp h => strokeSubpath_inv sqrtF p.t (w / 2) sp h) _ [] (by simp)

/-- **C5.**  `append_segment` appends a segment iff `p0.y ≠ p1.y` (and what
it appends is exactly `Segment(p0, p1)`); consequently every segment of
every filled shape and of every stroked shape handed to the rasterizer has
`y0 ≠ y1` — no horizontal segment enters the rasterizer. -/
theorem C5_no_horizontal_segment :
    (∀ (segs : List Segment) (p0 p1 : Point),
      appendSegment segs p0 p1 ≠ segs ↔ p0.y ≠ p1.y) ∧
    (∀ (segs : List Segment) (p0 p1 : Point) (s : Segment),
      s ∈ appendSegment segs p0 p1 →
        s ∈ segs ∨ (p0.y ≠ p1.y ∧ s = Segment.ofPoints p0 p1)) ∧
    (∀ (p : Path) (s : Segment), s ∈ p.fillSegments → s.y0 ≠ s.y1) ∧
    (∀ (sqrtF : ℚ → ℚ) (p : Path) (w : ℚ) (s : Segment),
      s ∈ p.strokeSegments sqrtF w → s.y0 ≠ s.y1) :=
  ⟨appendSegment_ne_iff,
    fun _ _ _ _ hs => mem_appendSegment hs,
    fun p s hs => fillSegments_inv p s hs,
    fun sqrtF p w s hs => strokeSegments_inv sqrtF p w s hs⟩

/-- **C5 witness.**  All four clauses exercised concretely: a non-horizontal
pair is appended; the appended segment is identified; a filled open triangle
side and a stroked vertical hairline both yield segments with `y0 ≠ y1`. -/
theorem C5_witness :
    appendSegment [] ⟨0, 0⟩ ⟨1, 2⟩ ≠ [] ∧
    (Segment.ofPoints ⟨0, 0⟩ ⟨1, 2⟩ ∈ ([] : List Segment) ∨
      ((⟨0, 0⟩ : Point).y ≠ (⟨1, 2⟩ : Point).y ∧
        Segment.ofPoints ⟨0, 0⟩ ⟨1, 2⟩ = Segment.ofPoints ⟨0, 0⟩ ⟨1, 2⟩)) ∧
    (Segment.ofPoints ⟨0, 0⟩ ⟨1, 2⟩).y0 ≠ (Segment.ofPoints ⟨0, 0⟩ ⟨1, 2⟩).y1 ∧
    (Segment.ofPoints ⟨0, 0⟩ ⟨0, 3⟩).y0 ≠ (Segment.ofPoints ⟨0, 0⟩ ⟨0, 3⟩).y1 := by
  obtain ⟨h1, h2, h3, h4⟩ := C5_no_horizontal_segment
  refine ⟨(h1 [] ⟨0, 0⟩ ⟨1, 2⟩).mpr (by decide), ?_, ?_, ?_⟩
  · exact h2 [] ⟨0, 0⟩ ⟨1, 2⟩ _ (by simp [appendSegment])
  · refine h3 ⟨Transformation.ident, [⟨[⟨0, 0⟩, ⟨1, 2⟩], false⟩]⟩ _ ?_
    simp [Path.fillSegments, fillSubpath, appendSegment, Transformation.ident,
      Transformation.apply, List.getLastI]
  · refine h4 (fun _ => 3) ⟨Transformation.ident, [⟨[⟨0, 0⟩, ⟨0, 3⟩], false⟩]⟩ 0 _ ?_
    simp [Path.strokeSegments, strokeSubpath, pushOffsetSegment, fillSubpath,
      appendSegment, Transformation.ident, Transformation.apply, point_sub_def,
      point_smul_def, point_add_def, List.getLastI]

/-! ## C9: straight cubics flatten to a single segment -/

/-- A point of the segment `a`–`b` (affine parameter `s ∈ [0,1]`) is at
squared distance 0 from that segment. -/
theorem getDistanceSquared_on_segment (a b : Point) (s : ℚ) (h0 : 0 ≤ s)
    (h1 : s ≤ 1) :
    getDistanceSquared a b (a + (b - a) * s) = 0 := by
  obtain ⟨ax, ay⟩ := a
  obtain ⟨bx, byy⟩ := b
  unfold getDistanceSquared lengthSquared dot
  simp only [point_sub_def, point_smul_def, point_add_def]
  split_ifs with hab hu hu1
  · rw [Point.mk.injEq] at hab
    obtain ⟨hx, hy⟩ := hab
    subst hx
    subst hy
    ring
  · have hab' : ¬ (ax = bx ∧ ay = byy) := by
      intro hc
      exact hab (by rw [Point.mk.injEq]; exact hc)
    have hlen : (bx - ax) * (bx - ax) + (byy - ay) * (byy - ay) ≠ 0 := by
      intro hz
      have h1' : (bx - ax) ^ 2 = 0 ∧ (byy - ay) ^ 2 = 0 := by
        constructor <;> nlinarith [sq_nonneg (bx - ax), sq_nonneg (byy - ay)]
      exact hab' ⟨by nlinarith [h1'.1], by nlinarith [h1'.2]⟩
    have hkey : ((ax + (bx - ax) * s - ax) * (bx - ax) +
          (ay + (byy - ay) * s - ay) * (byy - ay)) /
          ((bx - ax) * (bx - ax) + (byy - ay) * (byy - ay)) = s := by
      field_simp
      ring
    rw [hkey] at hu
    have hs0 : s = 0 := le_antisymm hu h0
    subst hs0
    ring
  · have hab' : ¬ (ax = bx ∧ ay = byy) := by
      intro hc
      exact hab (by rw [Point.mk.injEq]; exact hc)
    have hlen : (bx - ax) * (bx - ax) + (byy - ay) * (byy - ay) ≠ 0 := by
      intro hz
      have h1' : (bx - ax) ^ 2 = 0 ∧ (byy - ay) ^ 2 = 0 := by
        constructor <;> nlinarith [sq_nonneg (bx - ax), sq_nonneg (byy - ay)]
      exact hab' ⟨by nlinarith [h1'.1], by nlinarith [h1'.2]⟩
    have hkey : ((ax + (bx - ax) * s - ax) * (bx - ax) +
          (ay + (byy - ay) * s - ay) * (byy - ay)) /
          ((bx - ax) * (bx - ax) + (byy - ay) * (byy - ay)) = s := by
      field_simp
      ring
    rw [hkey] at hu1
    have hs1 : s = 1 := le_antisymm h1 hu1
    subst hs1
    ring
  · have hab' : ¬ (ax = bx ∧ ay = byy) := by
      intro hc
      exact hab (by rw [Point.mk.injEq]; exact hc)
    have hlen : (bx - ax) * (bx - ax) + (byy - ay) * (byy - ay) ≠ 0 := by
      intro hz
      have h1' : (bx - ax) ^ 2 = 0 ∧ (byy - ay) ^ 2 = 0 := by
        constructor <;> nlinarith [sq_nonneg (bx - ax), sq_nonneg (byy - ay)]
      exact hab' ⟨by nlinarith [h1'.1], by nlinarith [h1'.2]⟩
    have hkey : ((ax + (bx - ax) * s - ax) * (bx - ax) +
          (ay + (byy - ay) * s - ay) * (byy - ay)) /
          ((bx - ax) * (bx - ax) + (byy - ay) * (byy - ay)) = s := by
      field_simp
      ring
    rw [hkey]
    ring

/-- Affine maps preserve affine combinations of two points. -/
theorem apply_affine_combination (t : Transformation) (p q : Point) (s : ℚ) :
    t.apply (p + (q - p) * s) = t.apply p + (t.apply q - t.apply p) * s := by
  obtain ⟨px, py⟩ := p
  obtain ⟨qx, qy⟩ := q
  simp only [point_sub_def, point_smul_def, point_add_def, Transformation.apply]
  rw [Point.mk.injEq]
  constructor <;> ring

/-- A cubic whose inner control points lie on the chord has squared
flattening error 0 (also after any affine device transform). -/
theorem getErrorSquared_collinear (t : Transformation) (p0 p3 : Point)
    (s1 s2 : ℚ) (h01 : 0 ≤ s1) (h11 : s1 ≤ 1) (h02 : 0 ≤ s2) (h12 : s2 ≤ 1) :
    getErrorSquared (t.apply p0) (t.apply (p0 + (p3 - p0) * s1))
      (t.apply (p0 + (p3 - p0) * s2)) (t.apply p3) = 0 := by
  unfold getErrorSquared
  rw [apply_affine_combination, apply_affine_combination,
    getDistanceSquared_on_segment _ _ _ h01 h11,
    getDistanceSquared_on_segment _ _ _ h02 h12]
  simp

/-- **C9.**  When the two inner control points lie on the segment from the
current point `p0` to `p3`, the flattening error is 0 < tolerance², so
`curve_to` takes the non-recursive branch: no subdivision happens and the
call is exactly one `line_to(p3)` — a single straight segment ending at
`p3`. -/
theorem C9_straight_cubic_single_segment (p : Path) (fuel : ℕ) (p1 p2 p3 : Point)
    (s1 s2 : ℚ) (h01 : 0 ≤ s1) (h11 : s1 ≤ 1) (h02 : 0 ≤ s2) (h12 : s2 ≤ 1)
    (hp1 : p1 = p.currentPoint + (p3 - p.currentPoint) * s1)
    (hp2 : p2 = p.currentPoint + (p3 - p.currentPoint) * s2) :
    p.curveTo (fuel + 1) p1 p2 p3 = p.lineTo p3 := by
  subst hp1
  subst hp2
  have herr := getErrorSquared_collinear p.t p.currentPoint p3 s1 s2 h01 h11 h02 h12
  simp only [Path.curveTo]
  rw [if_pos (by rw [herr]; norm_num [tolerance])]

/-- **C9 witness.**  From current point (0,0), the straight cubic to (1,2)
with control points at chord parameters 0 and 1 degenerates to a single
`line_to (1,2)`. -/
theorem C9_witness :
    Path.curveTo ⟨Transformation.ident, [⟨[⟨0, 0⟩], false⟩]⟩ 1
        ((⟨0, 0⟩ : Point) + ((⟨1, 2⟩ : Point) - ⟨0, 0⟩) * (0 : ℚ))
        ((⟨0, 0⟩ : Point) + ((⟨1, 2⟩ : Point) - ⟨0, 0⟩) * (1 : ℚ)) ⟨1, 2⟩ =
      Path.lineTo ⟨Transformation.ident, [⟨[⟨0, 0⟩], false⟩]⟩ ⟨1, 2⟩ :=
  C9_straight_cubic_single_segment ⟨Transformation.ident, [⟨[⟨0, 0⟩], false⟩]⟩ 0
    _ _ ⟨1, 2⟩ 0 1 (by decide) (by decide) (by decide) (by decide) rfl rfl

/-! ## C6: deterministic PNG encoding -/

/-- `foldl` only looks at the step function on members of the list. -/
theorem foldl_congr_mem {α β : Type} (l : List α) (f g : β → α → β) (b : β)
    (h : ∀ b' a, a ∈ l → f b' a = g b' a) : l.foldl f b = l.foldl g b := by
  induction l generalizing b with
  | nil => rfl
  | cons x xs ih =>
    rw [List.foldl_cons, List.foldl_cons, h b x (List.mem_cons_self x xs)]
    exact ih _ fun b' a ha => h b' a (List.mem_cons_of_mem x ha)

/-- A row's data-stream bytes depend only on the width and the pixels of
that row. -/
theorem rowData_congr (pm1 pm2 : Pixmap) (y : ℕ) (r : Rng)
    (hw : pm1.width = pm2.width)
    (hp : ∀ x, x < pm1.width → pm1.get_pixel x y = pm2.get_pixel x y) :
    rowData pm1 y r = rowData pm2 y r := by
  unfold rowData
  rw [← hw]
  refine foldl_congr_mem _ _ _ _ ?_
  intro b a ha
  rw [hp a (List.mem_range.mp ha)]

/-- The whole data stream (seeded once with the fixed seed) depends only on
the width and the pixels actually read. -/
theorem allRowsData_congr (pm1 pm2 : Pixmap) (h : ℕ)
    (hw : pm1.width = pm2.width)
    (hp : ∀ x y, x < pm1.width → y < h → pm1.get_pixel x y = pm2.get_pixel x y) :
    allRowsData pm1 h = allRowsData pm2 h := by
  unfold allRowsData
  congr 1
  refine foldl_congr_mem _ _ _ _ ?_
  intro b y hy
  rw [rowData_congr pm1 pm2 y b.2 hw fun x hx => hp x y hx (List.mem_range.mp hy)]

/-- The full byte stream depends only on the width, the height and the data
stream. -/
theorem pngBytes_congr (pm1 pm2 : Pixmap) (h : ℕ)
    (hw : pm1.width = pm2.width)
    (hrows : allRowsData pm1 h = allRowsData pm2 h) :
    pngBytes pm1 h = pngBytes pm2 h := by
  unfold pngBytes idatContent
  rw [hw, hrows]

/-- **C6.**  Encoding is deterministic: the encoder is a function of the
pixel contents alone — two pixmaps with the same width, the same pixel-count
and the same pixel at every coordinate the encoder reads produce
byte-identical PNG output (the dither generator is re-seeded with the fixed
xorshift128+ seed inside each encode, so no state leaks between encodes);
and `next_float` always lands in `[0,1)`, since `next()` is reduced mod
`2^64` and scaled by `2^-64`. -/
theorem C6_png_encoding_deterministic :
    (∀ pm1 pm2 : Pixmap, pm1.width = pm2.width →
      pm1.pixels.length = pm2.pixels.length →
      (∀ x y : ℕ, x < pm1.width → y < pm1.pixels.length / pm1.width →
        pm1.get_pixel x y = pm2.get_pixel x y) →
      writePng pm1 = writePng pm2) ∧
    (∀ r : Rng, 0 ≤ (r.nextFloat).1 ∧ (r.nextFloat).1 < 1) := by
  constructor
  · intro pm1 pm2 hw hl hp
    have hh : pm1.getHeightQ = pm2.getHeightQ := by
      unfold Pixmap.getHeightQ
      rw [hw, hl]
    unfold writePng
    rw [← hh]
    cases hcase : pm1.getHeightQ with
    | none => rfl
    | some h =>
      have hval : h = pm1.pixels.length / pm1.width := by
        unfold Pixmap.getHeightQ at hcase
        by_cases h0 : pm1.width = 0
        · rw [if_pos h0] at hcase
          exact absurd hcase (by simp)
        · rw [if_neg h0] at hcase
          exact (Option.some_inj.mp hcase).symm
      simp only
      rw [pngBytes_congr pm1 pm2 h hw
        (allRowsData_congr pm1 pm2 h hw fun x y hx hy => hp x y hx (hval ▸ hy))]
  · intro r
    have hfl : (r.nextFloat).1 = ((r.next).1 : ℚ) / 2 ^ 64 := rfl
    rw [hfl]
    constructor
    · exact div_nonneg (by positivity) (by positivity)
    · rw [div_lt_one (by positivity)]
      have hlt : (r.next).1 < M64 := Nat.mod_lt _ (by norm_num [M64])
      calc ((r.next).1 : ℚ) < (M64 : ℚ) := by exact_mod_cast hlt
        _ = 2 ^ 64 := by norm_num [M64]

/-- **C6 witness.**  Two concrete 2-wide pixmaps with three stored colors —
so the third color is beyond the single encoded row and never read — that
differ exactly in that unread color encode to byte-identical output; and the
seeded generator's first `next_float` lies in `[0,1)`. -/
theorem C6_witness :
    writePng ⟨2, [⟨1, 0, 0, 1⟩, ⟨0, 1, 0, 1⟩, ⟨0, 0, 1, 1⟩]⟩ =
      writePng ⟨2, [⟨1, 0, 0, 1⟩, ⟨0, 1, 0, 1⟩, ⟨1, 1, 1, 1⟩]⟩ ∧
    (⟨0, 0, 1, 1⟩ : Color) ≠ ⟨1, 1, 1, 1⟩ ∧
    0 ≤ (Rng.seed.nextFloat).1 ∧ (Rng.seed.nextFloat).1 < 1 := by
  obtain ⟨hdet, hfloat⟩ := C6_png_encoding_deterministic
  refine ⟨?_, by decide, (hfloat Rng.seed).1, (hfloat Rng.seed).2⟩
  refine hdet _ _ rfl rfl ?_
  intro x y hx hy
  simp only [List.length_cons, List.length_nil] at hy
  have hy0 : y = 0 := by omega
  subst hy0
  interval_cases x <;> rfl

end Raster

